import Mathlib

/-!
Verification development for the grabbit file-tree indexer.

This file gives a shallow embedding of the core data model and operations of
the grabbit library (grabbit/core.py, grabbit/extensions/writable.py,
grabbit/utils.py) and proves or refutes the frozen specification claims
about it.

Modelling conventions:
- Python dicts are embedded as association lists (List (String x v)) with
  insert-or-replace semantics that preserve insertion order, mirroring
  CPython dict behaviour.
- Python values that can be strings, ints or booleans (entity values, filter
  values) are embedded as the Atom type; Python str() is Atom.pyStr.
- Compiled regular expressions coming from configuration data (entity
  patterns, include/exclude rules) are external collaborator functions and
  are embedded as abstract functions String -> Option String / String -> Bool
  stored in the corresponding records.  The regular expressions that the code
  itself constructs (File._matches query patterns) are embedded concretely
  with a small regex engine restricted to the constructs those patterns use.
- The filesystem is an external collaborator; it is embedded as a finite
  tree (FSTree) plus lookup functions bundled in a World record.
-/

namespace Grabbit

/-- Python value appearing as an entity value or filter atom: a string, an
integer, or a boolean. -/
inductive Atom where
  | str (s : String)
  | int (n : Int)
  | bool (b : Bool)
deriving DecidableEq, Repr

/-- Python str() on an Atom. -/
def Atom.pyStr : Atom → String
  | .str s => s
  | .int n => toString n
  | .bool b => if b then "True" else "False"

/-- Whether the Atom is a Python int/float (numeric), as tested by
isinstance(x, (int, float)) in File._matches.make_patt. -/
def Atom.isNumeric : Atom → Bool
  | .int _ => true
  | _ => false

/-- Association-list lookup, mirroring Python dict access d[k]. -/
def alookup {α : Type} (l : List (String × α)) (k : String) : Option α :=
  match l with
  | [] => none
  | (k₀, v₀) :: rest => if k₀ = k then some v₀ else alookup rest k

/-- Python membership test k in d. -/
def amem {α : Type} (l : List (String × α)) (k : String) : Bool :=
  (alookup l k).isSome

/-- Python dict assignment d[k] = v: replaces in place if the key exists
(keeping its position, as CPython dicts do), otherwise appends. -/
def aset {α : Type} (l : List (String × α)) (k : String) (v : α) :
    List (String × α) :=
  match l with
  | [] => [(k, v)]
  | (k₀, v₀) :: rest =>
      if k₀ = k then (k₀, v) :: rest else (k₀, v₀) :: aset rest k v

/-- The keys of an association list, in order. -/
def akeys {α : Type} (l : List (String × α)) : List String :=
  l.map (·.1)

/-- Append x if not already present; used to embed Python set insertion /
membership-guarded list appends with insertion order preserved. -/
def addUnique (l : List String) (x : String) : List String :=
  if l.contains x then l else l ++ [x]

/-- Deduplicate keeping the first occurrence of each element, preserving
order; embeds the (deterministic-per-run) contents of a Python set built by
successive insertions. -/
def dedupFirst (l : List String) : List String :=
  l.foldl addUnique []

/-! ### grabbit/extensions/writable.py

Embedding of replace_entities and build_path exactly as found in
src/grabbit/extensions/writable.py (note: that revision has no default
or alternation syntax inside placeholders and its optional segments are
square-bracketed).
-/

/-- Split a character list at the first occurrence of c: returns the part
before it and the part after it, or none when c does not occur. -/
def splitAtChar (c : Char) (l : List Char) : Option (List Char × List Char) :=
  match l with
  | [] => none
  | x :: xs =>
      if x = c then some ([], xs)
      else match splitAtChar c xs with
        | some (pre, post) => some (x :: pre, post)
        | none => none

/-- Embeds re.findall of a lazy delim-open (.*?) delim-close pattern: collect
the contents of each shortest open...close chunk, scanning left to right.
Each step consumes at least one character, so the character count is
sufficient fuel. -/
def delimChunksGo (o c : Char) : Nat → List Char → List String
  | 0, _ => []
  | fuel + 1, l =>
      match l with
      | [] => []
      | x :: xs =>
          if x = o then
            match splitAtChar c xs with
            | some (content, rest) =>
                content.asString :: delimChunksGo o c fuel rest
            | none => []
          else delimChunksGo o c fuel xs

/-- re.findall of the brace pattern used in replace_entities. -/
def braceChunks (s : String) : List String :=
  delimChunksGo '\x7b' '\x7d' s.data.length s.data

/-- re.findall of the square-bracket pattern used in build_path. -/
def bracketChunks (s : String) : List String :=
  delimChunksGo '[' ']' s.data.length s.data

/-- str.replace semantics (all non-overlapping occurrences, left to right);
a structurally recursive stand-in for the string replace primitive. -/
def strReplaceGo (patt repl : List Char) : Nat → List Char → List Char
  | 0, l => l
  | fuel + 1, l =>
      match l with
      | [] => []
      | x :: xs =>
          if patt.isPrefixOf l then
            repl ++ strReplaceGo patt repl fuel (l.drop patt.length)
          else x :: strReplaceGo patt repl fuel xs

/-- Replace every occurrence of pattern in s by replacement. -/
def strReplace (s pattern replacement : String) : String :=
  if pattern.data.isEmpty then s
  else (strReplaceGo pattern.data replacement.data s.data.length s.data).asString

/-- str.startswith. -/
def strStartsWith (s pre : String) : Bool :=
  pre.data.isPrefixOf s.data

/-- str.endswith. -/
def strEndsWith (s post : String) : Bool :=
  post.data.reverse.isPrefixOf s.data.reverse

/-- writable.replace_entities: substitute every brace placeholder whose name
appears in the entity map; return none when some placeholder is unknown. -/
def replaceEntities (pattern : String) (entities : List (String × Atom)) :
    Option String :=
  let ents := braceChunks pattern
  let step := fun (acc : String × Bool) (ent : String) =>
    match alookup entities ent with
    | some v => (strReplace acc.1 ("\x7b" ++ ent ++ "\x7d") v.pyStr, acc.2)
    | none => (acc.1, false)
  let res := ents.foldl step (pattern, true)
  if res.2 then some res.1 else none

/-- One pattern of writable.build_path: drop each unresolvable (or empty)
optional bracket segment, then resolve the remaining placeholders. -/
def buildPathOne (pattern : String) (entities : List (String × Atom)) :
    Option String :=
  let optionalPatterns := bracketChunks pattern
  let newPath := optionalPatterns.foldl
    (fun np op =>
      let chunk := replaceEntities op entities
      match chunk with
      | some ch =>
          if ch ≠ "" then strReplace np ("[" ++ op ++ "]") ch
          else strReplace np ("[" ++ op ++ "]") ""
      | none => strReplace np ("[" ++ op ++ "]") "")
    pattern
  replaceEntities newPath entities

/-- writable.build_path over a list of candidate patterns: first pattern
that resolves to a non-empty path wins; none when all patterns fail. -/
def buildPath (pathPatterns : List String) (entities : List (String × Atom)) :
    Option String :=
  match pathPatterns with
  | [] => none
  | pattern :: rest =>
      match buildPathOne pattern entities with
      | some p => if p ≠ "" then some p else buildPath rest entities
      | none => buildPath rest entities

/-! ### A small regex engine

File._matches builds regex pattern strings and hands them to re.search.
The engine below covers the constructs those constructed patterns use:
literals, the dot wildcard, backslash escapes, a star on a single literal
or dot, anchors, alternation and non-capturing use of parenthesised groups.
-/

/-- Regex element. -/
inductive RItem where
  | lit (c : Char)
  | anyChar
  | bos
  | eos
  | starLit (c : Char)
  | starAny
  | group (alts : List (List RItem))
deriving Repr

/-- All ways a star over a single literal can consume a prefix of the
input: zero or more copies of c. Returns (absolute position, rest). -/
def starLitMatches (c : Char) (pos : Nat) (rest : List Char) :
    List (Nat × List Char) :=
  (pos, rest) ::
    match rest with
    | [] => []
    | x :: xs => if x = c then starLitMatches c (pos + 1) xs else []

/-- All ways a star over the dot wildcard can consume a prefix. -/
def starAnyMatches (pos : Nat) (rest : List Char) :
    List (Nat × List Char) :=
  (pos, rest) ::
    match rest with
    | [] => []
    | _ :: xs => starAnyMatches (pos + 1) xs

/-- One work unit of the backtracking matcher: a single element, an
alternation, or a sequence. -/
inductive RWork where
  | item (i : RItem)
  | alts (l : List (List RItem))
  | seq (s : List RItem)

/-- The backtracking matcher, fueled to stay structurally recursive.  One
fuel unit is spent per syntax node traversed along a single match path, so
any fuel bound above the pattern's node count is exact; the top-level
entry points supply ample fuel. -/
def matchGo : Nat → RWork → Nat → List Char → List (Nat × List Char)
  | 0, _, _, _ => []
  | fuel + 1, w, pos, rest =>
      match w with
      | .item (.lit c) =>
          match rest with
          | [] => []
          | x :: xs => if x = c then [(pos + 1, xs)] else []
      | .item .anyChar =>
          match rest with
          | [] => []
          | _ :: xs => [(pos + 1, xs)]
      | .item .bos => if pos = 0 then [(pos, rest)] else []
      | .item .eos => if rest.isEmpty then [(pos, rest)] else []
      | .item (.starLit c) => starLitMatches c pos rest
      | .item .starAny => starAnyMatches pos rest
      | .item (.group alts) => matchGo fuel (.alts alts) pos rest
      | .alts [] => []
      | .alts (a :: more) =>
          matchGo fuel (.seq a) pos rest ++ matchGo fuel (.alts more) pos rest
      | .seq [] => [(pos, rest)]
      | .seq (i :: is) =>
          (matchGo fuel (.item i) pos rest).flatMap fun st =>
            matchGo fuel (.seq is) st.1 st.2

/-- re.search semantics: try to match the alternation at every start
position, left to right.  fuel is the matchGo allowance, supplied by
reSearch from the pattern's length. -/
def searchFrom (fuel : Nat) (alts : List (List RItem)) (pos : Nat)
    (s : List Char) : Bool :=
  if matchGo fuel (.alts alts) pos s ≠ [] then true
  else
    match s with
    | [] => false
    | _ :: xs => searchFrom fuel alts (pos + 1) xs

/-- Recursive-descent parse of the supported regex fragment, fueled to
stay structurally recursive.  In sequence mode (seqMode true) it parses
one alternative up to a top-level bar or closing parenthesis and returns
it as a singleton list; in alternation mode it parses a bar-separated list
of alternatives.  Fuel is spent once per character and once per mode
switch, so the entry point's allowance is ample. -/
def parseGo : Nat → Bool → List Char → List RItem →
    List (List RItem) × List Char
  | 0, _, l, acc => ([acc.reverse], l)
  | fuel + 1, false, l, acc =>
      match l with
      | [] => ([acc.reverse], l)
      | '|' :: _ => ([acc.reverse], l)
      | ')' :: _ => ([acc.reverse], l)
      | '^' :: rest => parseGo fuel false rest (.bos :: acc)
      | '$' :: rest => parseGo fuel false rest (.eos :: acc)
      | '.' :: rest => parseGo fuel false rest (.anyChar :: acc)
      | '\\' :: c :: rest => parseGo fuel false rest (.lit c :: acc)
      | '*' :: rest =>
          match acc with
          | .lit c :: tl => parseGo fuel false rest (.starLit c :: tl)
          | .anyChar :: tl => parseGo fuel false rest (.starAny :: tl)
          | _ => parseGo fuel false rest (.lit '*' :: acc)
      | '(' :: rest =>
          let res := parseGo fuel true rest []
          let rest' := match res.2 with
            | ')' :: r => r
            | r => r
          parseGo fuel false rest' (.group res.1 :: acc)
      | c :: rest => parseGo fuel false rest (.lit c :: acc)
  | fuel + 1, true, l, _ =>
      let res := parseGo fuel false l []
      match res.2 with
      | '|' :: rest =>
          let more := parseGo fuel true rest []
          (res.1 ++ more.1, more.2)
      | rest => (res.1, rest)

/-- Parse a whole pattern string into its top-level alternation. -/
def parsePat (s : String) : List (List RItem) :=
  (parseGo (4 * s.length + 4) true s.data []).1

/-- re.search(pattern, s) is not None, over the supported fragment.  The
matcher allowance exceeds the node count of any pattern of this length. -/
def reSearch (pattern : String) (s : String) : Bool :=
  searchFrom (3 * pattern.length + 9) (parsePat pattern) 0 s.data

/-! ### File and Tag (grabbit/core.py)

A Tag holds a reference to an Entity and the matched value.  Of the Entity
object the Tag-consuming code reads only entity.id and entity.domain.name,
so the embedded Tag stores those two strings directly.
-/

/-- Tag namedtuple: the entity reference (its qualified id and its domain
name, the only fields read through a tag) plus the matched value. -/
structure Tag where
  entityId : String
  domainName : String
  value : Atom
deriving DecidableEq, Repr

/-- File object: a path and its name -> Tag mapping. -/
structure File where
  path : String
  tags : List (String × Tag)
deriving DecidableEq, Repr

/-- File.entities property: name -> value view of the tags. -/
def File.entities (f : File) : List (String × Atom) :=
  f.tags.map fun kt => (kt.1, kt.2.value)

/-- File.domains property: the set of domain names appearing in the tags
(a Python set; embedded as a first-occurrence deduplicated list). -/
def File.domains (f : File) : List String :=
  dedupFirst (f.tags.map fun kt => kt.2.domainName)

/-- File._matches.make_patt: numeric filter values get a leading zero-star
inserted; exact mode wraps the pattern in anchors. -/
def makePatt (regexSearch : Bool) (x : Atom) : String :=
  let patt := x.pyStr
  let patt := if x.isNumeric then "0*" ++ patt else patt
  if !regexSearch then "^" ++ patt ++ "$" else patt

/-- The entity-filter loop of File._matches.  A filter value of none embeds
Python None (the existence-inversion filter); otherwise the listified
filter values act as regex alternatives. -/
def matchesEntityFilters (f : File)
    (filters : List (String × Option (List Atom))) (regexSearch : Bool) :
    Bool :=
  match filters with
  | [] => true
  | (name, val) :: rest =>
      if xor (!(amem f.tags name)) (val = none) then false
      else
        match val with
        | none => matchesEntityFilters f rest regexSearch
        | some vs =>
            let patt := String.intercalate "|" (vs.map (makePatt regexSearch))
            match alookup f.tags name with
            | some t =>
                if reSearch patt t.value.pyStr then
                  matchesEntityFilters f rest regexSearch
                else false
            | none => false

/-- File._matches: extension allow-list, domain allow-list and per-entity
filters must all pass. -/
def fileMatches (f : File)
    (entities : Option (List (String × Option (List Atom))) := none)
    (extensions : Option (List String) := none)
    (domains : Option (List String) := none)
    (regexSearch : Bool := false) : Bool :=
  let extOk :=
    match extensions with
    | none => true
    | some exts =>
        reSearch ("(" ++ String.intercalate "|" exts ++ ")$") f.path
  if !extOk then false
  else
    let domOk :=
      match domains with
      | none => true
      | some ds => f.domains.any ds.contains
    if !domOk then false
    else
      match entities with
      | none => true
      | some filters => matchesEntityFilters f filters regexSearch

/-! ### Path helpers (posixpath semantics for the operations the code uses) -/

/-- Split a char list at the last slash: (part before, part after). -/
def splitLastSlash : List Char → Option (List Char × List Char)
  | [] => none
  | x :: xs =>
      match splitLastSlash xs with
      | some (a, b) => some (x :: a, b)
      | none => if x = '/' then some ([], xs) else none

/-- os.path.split: (head, tail) where tail is everything after the last
slash; the head keeps a lone leading slash but loses trailing slashes. -/
def pathSplit (p : String) : String × String :=
  match splitLastSlash p.data with
  | none => ("", p)
  | some (before, after) =>
      let headChars := before ++ ['/']
      let head :=
        if headChars.all (· = '/') then headChars
        else (headChars.reverse.dropWhile (· = '/')).reverse
      (head.asString, after.asString)

/-- os.path.dirname. -/
def dirName (p : String) : String := (pathSplit p).1

/-- os.path.basename. -/
def baseName (p : String) : String := (pathSplit p).2

/-- os.path.join for two components. -/
def pathJoin (a b : String) : String :=
  if strStartsWith b "/" then b
  else if a = "" then b
  else if strEndsWith a "/" then a ++ b
  else a ++ "/" ++ b

/-- os.path.relpath specialised to the only use in index(): the path is
already known to start with the root. -/
def relPathUnder (full root : String) : String :=
  let stripped := (full.data.drop root.data.length).asString
  if strStartsWith stripped "/" then (stripped.data.drop 1).asString
  else stripped

/-! ### utils.natural_sort -/

/-- One converted chunk of an alphanum key: a lowered text run or the
integer value of a digit run. -/
inductive NChunk where
  | s (x : String)
  | n (x : Nat)
deriving DecidableEq, Repr

/-- Group a char list into maximal runs tagged with whether they are digit
runs (the effect of re.split keeping the separators). -/
def digitRuns : List Char → List (Bool × List Char)
  | [] => []
  | c :: cs =>
      match digitRuns cs with
      | [] => [(c.isDigit, [c])]
      | (b, run) :: rest =>
          if b = c.isDigit then (b, c :: run) :: rest
          else (c.isDigit, [c]) :: (b, run) :: rest

/-- Value of a digit run (int() of the run). -/
def natOfDigits (l : List Char) : Nat :=
  l.foldl (fun acc c => acc * 10 + (c.toNat - '0'.toNat)) 0

/-- natural_sort.alphanum_key: split on digit runs, lowercase text chunks,
convert digit chunks to ints.  re.split produces (possibly empty) text
chunks at both ends, so the key always starts and ends with a text chunk. -/
def alphanumKey (st : String) : List NChunk :=
  let rs := (digitRuns st.data).map fun br =>
    if br.1 then NChunk.n (natOfDigits br.2)
    else NChunk.s (br.2.map Char.toLower).asString
  let rs := match rs with
    | NChunk.n x :: rest => NChunk.s "" :: NChunk.n x :: rest
    | [] => [NChunk.s ""]
    | other => other
  match rs.getLast? with
  | some (NChunk.n _) => rs ++ [NChunk.s ""]
  | _ => rs

/-- Lexicographic comparison of char lists by code point (Python str <). -/
def charListLt : List Char → List Char → Bool
  | [], [] => false
  | [], _ :: _ => true
  | _ :: _, [] => false
  | a :: as, b :: bs =>
      if a.toNat < b.toNat then true
      else if a = b then charListLt as bs
      else false

/-- Comparison of key chunks: Python compares like types directly; unlike
types never meet at the same position of two alphanum keys (types alternate
with text chunks at even positions), so the cross-type case is fixed
arbitrarily. -/
def nchunkLt : NChunk → NChunk → Bool
  | .s a, .s b => charListLt a.data b.data
  | .n a, .n b => a < b
  | .n _, .s _ => true
  | .s _, .n _ => false

/-- Python list comparison (lexicographic, shorter prefix first). -/
def keyLt : List NChunk → List NChunk → Bool
  | [], [] => false
  | [], _ :: _ => true
  | _ :: _, [] => false
  | a :: as, b :: bs => if nchunkLt a b then true else if a = b then keyLt as bs else false

/-- Stable ascending insertion: a new element goes after existing elements
with an equal key, matching Python's stable sorted(). -/
def insertAscBy {α : Type} (key : α → List NChunk) (x : α) :
    List α → List α
  | [] => [x]
  | y :: ys => if keyLt (key x) (key y) then x :: y :: ys else y :: insertAscBy key x ys

/-- utils.natural_sort on a list of strings. -/
def naturalSort (l : List String) : List String :=
  l.foldl (fun acc x => insertAscBy alphanumKey x acc) []

/-- Stable descending insertion by a numeric key (list.sort with a key and
reverse=True): a new element goes after existing elements with an equal or
greater key. -/
def insertDescBy {α : Type} (key : α → Nat) (x : α) : List α → List α
  | [] => [x]
  | y :: ys => if key x > key y then x :: y :: ys else y :: insertDescBy key x ys

/-- Python stable sort with reverse=True on a numeric key. -/
def sortDescBy {α : Type} (key : α → Nat) (l : List α) : List α :=
  l.foldl (fun acc x => insertDescBy key x acc) []

/-! ### Entity, Domain, Config, Layout, World (grabbit/core.py)

Compiled entity regexes, mapping functions, dtype coercions and
include/exclude regexes are configuration-supplied collaborators; they are
embedded as abstract functions.  Python shares one Entity object between
Layout.entities, Domain.entities and every alias key; the embedding stores
each Entity once in the Layout table, keyed by its qualified id, with
domains and aliases referring to it by id, so that the shared-object
mutation of add_file is reproduced. -/

/-- Entity: extraction rule, mandatory flag and the path -> value map. -/
structure Entity where
  name : String
  id : String
  domainName : String
  mandatory : Bool
  patternSearch : Option (String → Option String)
  mapFunc : Option (String → Option Atom)
  dtype : Option (Atom → Atom)
  directory : Option String
  files : List (String × Atom)

/-- Entity.match_file: mapping function if present, else regex search with
group 1, then optional dtype coercion.  (Entity.__init__ guarantees at
least one of pattern and map_func is present.) -/
def Entity.matchFile (e : Entity) (path : String) : Option Atom :=
  let val : Option Atom :=
    match e.mapFunc with
    | some mf => mf path
    | none =>
        match e.patternSearch with
        | some ps => (ps path).map Atom.str
        | none => none
  match val, e.dtype with
  | some v, some d => some (d v)
  | v, _ => v

/-- Domain: a named bundle of rules.  entityNames is the Domain.entities
dict, mapping each entity's local name to its qualified id in the Layout
entity table; files is the Domain.files list (the embedded list stores the
file paths). -/
structure Domain where
  name : String
  roots : List String
  includeRules : List (String → Bool)
  excludeRules : List (String → Bool)
  extraDomains : List String
  pathPatterns : List String
  entityNames : List (String × String)
  files : List String

/-- One entity entry of a JSON config, with its collaborator functions. -/
structure EntitySpec where
  name : String
  mandatory : Bool
  patternSearch : Option (String → Option String)
  mapFunc : Option (String → Option Atom)
  dtype : Option (Atom → Atom)
  directory : Option String
  aliases : List String

/-- A parsed domain config (the JSON object).  root none embeds a missing
or dot-valued root entry (both fall back to the caller-supplied root). -/
structure Config where
  name : String
  root : Option (List String)
  includeRules : List (String → Bool)
  excludeRules : List (String → Bool)
  extraDomains : List String
  pathPatterns : List String
  entities : List EntitySpec

/-- Layout: the top-level aggregate.  (dynamic_getters, entity_mapper and
path_patterns play no role in the claims and are omitted; aliasIds records
the alias keys of Layout.entities.) -/
structure Layout where
  entities : List (String × Entity)
  aliasIds : List (String × String)
  files : List (String × File)
  mandatory : List String
  domains : List (String × Domain)
  includeRules : List (String → Bool)
  excludeRules : List (String → Bool)
  root : String
  absolutePaths : Bool
  regexSearch : Bool
  configFilename : String

/-- Directory tree: named subtrees plus file names, the data walked by the
file-listing collaborator. -/
inductive FSTree where
  | node (subdirs : List (String × FSTree)) (files : List String)

/-- The external world: os.walk roots, json.load of config files found
while walking, and os.path.exists for root checks. -/
structure World where
  tree : String → Option FSTree
  configAt : String → Option Config
  pathExists : String → Bool

mutual

/-- Fully materialised os.walk(root, topdown=True), as produced by
Layout._get_files (which exhausts the walk generator with list() before
the caller's pruning loop runs, so pruning never affects traversal). -/
def walkAll (root : String) : FSTree → List (String × List String × List String)
  | .node subdirs files =>
      (root, subdirs.map (·.1), files) :: walkAllList root subdirs

def walkAllList (root : String) :
    List (String × FSTree) → List (String × List String × List String)
  | [] => []
  | (nm, t) :: rest => walkAll (pathJoin root nm) t ++ walkAllList root rest

end

/-- Layout._check_inclusions: the Layout's global rules are consulted
first, then each domain's; include rules, when present, decide within
their owner; otherwise a matching exclude rule rejects. -/
def checkInclusionRules :
    List (List (String → Bool) × List (String → Bool)) → String → Bool
  | [], _ => true
  | (incl, excl) :: rest, fname =>
      if !incl.isEmpty then incl.any fun r => r fname
      else if excl.any (fun r => r fname) then false
      else checkInclusionRules rest fname

/-- Layout._check_inclusions for one file path against the global rules and
one domain's rules (as called from index()). -/
def Layout.checkInclusions (L : Layout) (doms : List Domain) (fname : String) :
    Bool :=
  checkInclusionRules
    ((L.includeRules, L.excludeRules) ::
      doms.map fun d => (d.includeRules, d.excludeRules)) fname

/-- An Entity with its file map cleared. -/
def resetEntity (e : Entity) : Entity :=
  { e with files := [] }

/-- Layout._reset_index: clears the file map and every Entity's file map
(Domain.files is not touched). -/
def Layout.resetIndex (L : Layout) : Layout :=
  { L with
    files := [],
    entities := L.entities.map fun kv => (kv.1, resetEntity kv.2) }

/-- The match_vals loop of Layout._index_file over one domain's entities:
collect (name, Tag) for every matching entity, stopping at the first
mandatory entity that fails to match (a break that keeps what was
collected before it). -/
def domainMatchVals (es : List (String × Entity)) :
    List (String × String) → String → List (String × Tag)
  | [], _ => []
  | (nm, eid) :: rest, path =>
      match alookup es eid with
      | none => domainMatchVals es rest path
      | some e =>
          match e.matchFile path with
          | none =>
              if e.mandatory then []
              else domainMatchVals es rest path
          | some v => (nm, ⟨eid, e.domainName, v⟩) :: domainMatchVals es rest path

/-- Entity.add_file through the entity table: the entity object stored
under the given id gains a path -> value association. -/
def entAddFile (es : List (String × Entity)) (eid p : String) (v : Atom) :
    List (String × Entity) :=
  match alookup es eid with
  | some e => aset es eid { e with files := aset e.files p v }
  | none => es

/-- One domain iteration of Layout._index_file: tag the file with the
collected match values and, when update_layout is set, record the file on
each matched Entity and on the Domain (the Domain object mutated in place
lives under the lookup key dn of the domain table). -/
def indexFileDomainStep (L : Layout) (f : File) (dn : String) (d : Domain)
    (updateLayout : Bool) : Layout × File :=
  let mv := domainMatchVals L.entities d.entityNames f.path
  let ff := mv.foldl (fun fc nt => { fc with tags := aset fc.tags nt.1 nt.2 }) f
  let L :=
    if updateLayout then
      let newEnts := mv.foldl
        (fun es nt => entAddFile es nt.2.entityId f.path nt.2.value) L.entities
      { L with entities := newEnts }
    else L
  let L :=
    if updateLayout then
      let newDom := { d with files := d.files ++ [ff.path] }
      { L with domains := aset L.domains dn newDom }
    else L
  (L, ff)

/-- The domain loop of Layout._index_file; an unknown domain name raises,
leaving the mutations of the domains already processed in place.  After
the loop the file is recorded in the file map unconditionally (also when
update_layout is false). -/
def indexFileGo (L : Layout) (f : File) (updateLayout : Bool) :
    List String → Layout × Option String × Option File
  | [] => ({ L with files := aset L.files f.path f }, none, some f)
  | d :: rest =>
      match alookup L.domains d with
      | none =>
          (L, some ("Cannot index file '" ++ f.path ++ "' in domain '" ++ d ++
            "'; no domain with that name exists."), none)
      | some dom =>
          let res := indexFileDomainStep L f d dom updateLayout
          indexFileGo res.1 res.2 updateLayout rest

/-- Layout._index_file. -/
def Layout.indexFile (L : Layout) (root base : String)
    (domains : Option (List String)) (updateLayout : Bool) :
    Layout × Option String × Option File :=
  let f : File := ⟨pathJoin root base, []⟩
  indexFileGo L f updateLayout (domains.getD [])

/-- Layout.add_entity together with Entity.__init__ and Domain.add_entity:
construct the Entity, register it on the domain, record it as mandatory if
flagged, expand the root placeholder in its directory template, and enter
it (and its aliases) into the Layout entity table. -/
def Layout.addEntity (L : Layout) (dom : Domain) (spec : EntitySpec) :
    Layout × Domain :=
  let eid := dom.name ++ "." ++ spec.name
  let ent : Entity :=
    { name := spec.name
      id := eid
      domainName := dom.name
      mandatory := spec.mandatory
      patternSearch := spec.patternSearch
      mapFunc := spec.mapFunc
      dtype := spec.dtype
      directory := spec.directory.map fun d =>
        strReplace d "\x7b\x7broot\x7d\x7d" L.root
      files := [] }
  let dom := { dom with entityNames := aset dom.entityNames spec.name eid }
  let L :=
    if ent.mandatory then { L with mandatory := addUnique L.mandatory eid }
    else L
  let L := { L with entities := aset L.entities eid ent }
  let newAliases := spec.aliases.foldl
    (fun a al => aset a (dom.name ++ "." ++ al) eid) L.aliasIds
  let L := { L with aliasIds := newAliases }
  (L, dom)

/-- The entity-registration loop of Layout._load_domain. -/
def addEntitiesLoop (L : Layout) (dom : Domain) :
    List EntitySpec → Layout × Domain
  | [] => (L, dom)
  | spec :: rest =>
      let res := L.addEntity dom spec
      addEntitiesLoop res.1 res.2 rest

/-- Layout._load_domain on an already-parsed config dict.  Returns the new
state and, in the error cases, the message of the raised exception; every
raise happens before any Layout mutation, so an error leaves the state
exactly as passed in.  root is the caller-supplied root list; fromInit
tells whether the call comes from the constructor. -/
def Layout.loadDomainCfg (L : Layout) (w : World) (cfg : Config)
    (root : Option (List String)) (fromInit : Bool) :
    Layout × Option String :=
  if amem L.domains cfg.name then
    (L, some ("Config with name '" ++ cfg.name ++ "' already exists in " ++
      "Layout. Name of each config file must be unique across entire Layout."))
  else
    let rootFallback :=
      match root, fromInit with
      | none, true => some [L.root]
      | r, _ => r
    let effRoots :=
      match cfg.root with
      | some rs => some rs
      | none => rootFallback
    match effRoots with
    | none => (L, some "TypeError: config root is None")
    | some roots =>
        if roots.any (fun r => !(w.pathExists r)) then
          (L, some ("Root directory for domain " ++ cfg.name ++
            " does not exist!"))
        else if !cfg.includeRules.isEmpty && !cfg.excludeRules.isEmpty then
          (L, some ("The 'include' and 'exclude' arguments cannot both be " ++
            "set for domain '" ++ cfg.name ++ "'."))
        else
          let dom0 : Domain :=
            { name := cfg.name
              roots := roots
              includeRules := cfg.includeRules
              excludeRules := cfg.excludeRules
              extraDomains := cfg.extraDomains
              pathPatterns := cfg.pathPatterns
              entityNames := []
              files := [] }
          let res := addEntitiesLoop L dom0 cfg.entities
          ({ res.1 with domains := aset res.1.domains res.2.name res.2 }, none)

/-- Layout._load_domain on a config-file path discovered during the walk
(from_init false): the file is read through the world's json.load and the
config root defaults to the file's directory.  Returns the state, the
error if one was raised, and the name of the loaded domain on success. -/
def Layout.loadDomainPath (L : Layout) (w : World) (cfgPath : String) :
    Layout × Option String × Option String :=
  match w.configAt cfgPath with
  | none => (L, some ("Config file '" ++ cfgPath ++ "' cannot be found."), none)
  | some cfg =>
      match L.loadDomainCfg w cfg (some [dirName cfgPath]) false with
      | (L', none) => (L', none, some cfg.name)
      | (L', some err) => (L', some err, none)

/-- Add a set of domain names to a path's entry of the files_to_index
accumulator (defaultdict(set) update, insertion order preserved). -/
def ftiAdd (fti : List (String × List String)) (p : String)
    (ds : List String) : List (String × List String) :=
  match alookup fti p with
  | some cur => aset fti p (ds.foldl addUnique cur)
  | none => fti ++ [(p, ds.foldl addUnique [])]

/-- The per-file body of _index_domain_files: a config file is queued (at
most once), any other file passing the inclusion rules and file validation
(base Layout._validate_file always accepts) is added to files_to_index
under the domain set to add; the path is made root-relative when the
Layout is not in absolute-paths mode. -/
def indexDomainFilesStep (L : Layout) (dom : Domain) (domsToAdd : List String)
    (acc : List (String × List String) × List String)
    (root : String) (f : String) :
    List (String × List String) × List String :=
  let fullPath := pathJoin root f
  if f = L.configFilename then
    (acc.1, addUnique acc.2 fullPath)
  else if L.checkInclusions [dom] fullPath then
    let fullPath :=
      if strStartsWith fullPath L.root && !L.absolutePaths then
        relPathUnder fullPath L.root
      else fullPath
    (ftiAdd acc.1 fullPath domsToAdd, acc.2)
  else acc

/-- index()._index_domain_files for one domain: walk every root of the
domain and process each file of each directory triple.  (The
subdirectory-pruning block of the source is a no-op because _get_files
materialises the whole walk first; it is therefore not represented.) -/
def indexDomainFiles (L : Layout) (w : World) (dom : Domain)
    (acc : List (String × List String) × List String) :
    List (String × List String) × List String :=
  let domsToAdd := dedupFirst (dom.extraDomains ++ [dom.name])
  let dataset := dom.roots.flatMap fun r =>
    match w.tree r with
    | some t => walkAll r t
    | none => []
  dataset.foldl
    (fun a triple =>
      triple.2.2.foldl (fun a2 f => indexDomainFilesStep L dom domsToAdd a2 triple.1 f) a)
    acc

/-- The extra-config loop of index(): Python iterates over a list that
_index_domain_files may extend, so this is a worklist; fuel only bounds
the growth (the loop exits normally when the position passes the end). -/
def extraConfigLoop (L : Layout) (w : World)
    (fti : List (String × List String)) (ec : List String) (pos : Nat) :
    Nat → Layout × List (String × List String) × Option String
  | 0 =>
      match ec.get? pos with
      | none => (L, fti, none)
      | some _ => (L, fti, some "fuel exhausted")
  | fuel + 1 =>
      match ec.get? pos with
      | none => (L, fti, none)
      | some cfgPath =>
          match L.loadDomainPath w cfgPath with
          | (L', some err, _) => (L', fti, some err)
          | (L', none, dname) =>
              match dname.bind (alookup L'.domains) with
              | none => (L', fti, some "internal: domain not registered")
              | some dom =>
                  let res := indexDomainFiles L' w dom (fti, ec)
                  extraConfigLoop L' w res.1 res.2 (pos + 1) fuel

/-- The final loop of index(): index every candidate file under its
accumulated domain set.  A raise from _index_file propagates, keeping the
mutations already made. -/
def indexFilesLoop (L : Layout) :
    List (String × List String) → Layout × Option String
  | [] => (L, none)
  | (p, ds) :: rest =>
      let sp := pathSplit p
      match L.indexFile sp.1 sp.2 (some ds) true with
      | (L', none, _) => indexFilesLoop L' rest
      | (L', some err, _) => (L', some err)

/-- The candidate-gathering phase of index(): files_to_index and the
extra-config list accumulated over every registered domain's walk (run on
the reset Layout). -/
def Layout.indexInit (L : Layout) (w : World) :
    List (String × List String) × List String :=
  let L := L.resetIndex
  L.domains.foldl
    (fun acc kv => indexDomainFiles L w kv.2 acc) (([], []) :
      List (String × List String) × List String)

/-- Layout.index: reset derived state, gather candidate files (and config
files) from every domain's walk, load and walk the discovered configs,
then index every candidate.  fuel bounds only the extra-config worklist. -/
def Layout.index (L : Layout) (w : World) (fuel : Nat) :
    Layout × Option String :=
  let init := L.indexInit w
  let L := L.resetIndex
  match extraConfigLoop L w init.1 init.2 0 fuel with
  | (L', fti, none) => indexFilesLoop L' fti
  | (L', _, some err) => (L', some err)

/-- One file's serialised entry: its path, its domains view, and its
qualified-entity-id -> value map (a dict build, so a later tag with the
same entity id overwrites an earlier one). -/
def saveEntry (f : File) : String × List String × List (String × Atom) :=
  (f.path, f.domains,
    f.tags.foldl (fun acc kt => aset acc kt.2.entityId kt.2.value) [])

/-- Layout.save_index: the serialised form, one entry per indexed file. -/
def Layout.saveIndex (L : Layout) :
    List (String × List String × List (String × Atom)) :=
  L.files.map fun kv => saveEntry kv.2

/-- The tag-reconstruction of load_index(reindex=False): each stored
qualified entity id is looked up in the current entity table (a missing id
raises a KeyError, embedded as an error result). -/
def rebuildTags (es : List (String × Entity)) :
    List (String × Atom) → Option (List (String × Tag))
  | [] => some []
  | (k, v) :: rest =>
      match alookup es k with
      | none => none
      | some e =>
          (rebuildTags es rest).map fun ts => (k, ⟨e.id, e.domainName, v⟩) :: ts

/-- The per-file body of load_index. -/
def loadIndexStep (L : Layout) (reindex : Bool)
    (entry : String × List String × List (String × Atom)) :
    Layout × Option String :=
  let path := entry.1
  let doms := entry.2.1
  let ents := entry.2.2
  let sp := pathSplit path
  if reindex then
    match L.indexFile sp.1 sp.2 (some doms) true with
    | (L', err, _) => (L', err)
  else
    match rebuildTags L.entities ents with
    | none => (L, some "KeyError: unknown entity id in loaded index")
    | some tags =>
        let f : File := ⟨pathJoin sp.1 sp.2, tags⟩
        let L := { L with files := aset L.files f.path f }
        let newEnts := f.entities.foldl
          (fun es kv => entAddFile es kv.1 f.path kv.2) L.entities
        let L := { L with entities := newEnts }
        (L, none)

/-- The entry loop of load_index, threading the first raised error. -/
def loadLoop (reindex : Bool) (acc : Layout)
    (data : List (String × List String × List (String × Atom))) :
    Layout × Option String :=
  data.foldl
    (fun a entry =>
      match a with
      | (Lc, none) => loadIndexStep Lc reindex entry
      | err => err)
    (acc, none)

/-- Layout.load_index on already-deserialised data: reset, then restore
(or re-match) every stored file. -/
def Layout.loadIndex (L : Layout)
    (data : List (String × List String × List (String × Atom)))
    (reindex : Bool) : Layout × Option String :=
  loadLoop reindex L.resetIndex data

/-- Layout.get with return_type file: filter the file map with
File._matches and return the naturally sorted paths.  A regexSearch of
none falls back to the instance default. -/
def Layout.getFiles (L : Layout)
    (filters : List (String × Option (List Atom)))
    (extensions : Option (List String)) (domains : Option (List String))
    (regexSearch : Option Bool) : List String :=
  let rs := regexSearch.getD L.regexSearch
  naturalSort
    (((L.files.filter fun kv =>
        fileMatches kv.2 (some filters) extensions domains rs).map
      fun kv => kv.2.path))

/-- get_nearest.count_matches: number of entities shared between the
parsed starting-path entities and the candidate file, and among those the
number whose values agree (the parsed value is a raw matched string; it
agrees only with a string tag of the same content). -/
def countMatches (parsed : List (String × String)) (f : File) : Nat × Nat :=
  let fents := f.entities
  let keys := (akeys parsed).filter fun k => amem fents k
  (keys.length,
    (keys.filter fun k =>
      match alookup parsed k with
      | some pv => alookup fents k = some (Atom.str pv)
      | none => false).length)

/-- Remove one key from an association list (dict.pop with default). -/
def aremove {α : Type} (l : List (String × α)) (k : String) :
    List (String × α) :=
  l.filter fun kv => kv.1 ≠ k

/-- The best match of one directory in get_nearest: the files directly in
the directory, paired with their match counts, filtered to perfect
agreement when strict, stable-sorted by agreement count descending; the
head (if any) wins. -/
def gnHereBest (folders : List (String × List File))
    (parsed : List (String × String)) (strict : Bool) (path : String) :
    List File :=
  let here := (alookup folders path).getD []
  let numEnts := here.map fun f => (f, countMatches parsed f)
  let numEnts :=
    if strict then numEnts.filter fun x => x.2.1 = x.2.2 else numEnts
  let numEnts := sortDescBy (fun x => x.2.2) numEnts
  match numEnts with
  | x :: _ => [x.1]
  | [] => []

/-- The upward walk of get_nearest.  At a directory that holds candidate
files the best match is appended; without all_ the walk stops at the
first directory holding any candidates, whether or not one survived the
strict filter.  Fuel dominates the strictly shrinking path. -/
def gnLoop (folders : List (String × List File))
    (parsed : List (String × String)) (strict allM : Bool) :
    Nat → String → List File → List File
  | fuel, path, acc =>
      let hit := !((alookup folders path).getD []).isEmpty
      let acc :=
        if hit then acc ++ gnHereBest folders parsed strict path else acc
      if hit && !allM then acc
      else
        match fuel with
        | 0 => acc
        | fuel' + 1 =>
            let sp := pathSplit path
            if sp.1 = path then acc
            else gnLoop folders parsed strict allM fuel' sp.1 acc

/-- The entity parse of get_nearest: each entity's raw compiled regex is
searched against the starting path (bypassing dtype coercion and mapping
functions; a map_func-only entity, whose regex attribute is None, would
crash in Python and is skipped here), then the strict-ignored names are
popped. -/
def Layout.parsedPathEntities (L : Layout) (path : String) (strict : Bool)
    (ignoreStrict : Option (List String)) : List (String × String) :=
  let parsed := L.entities.foldl
    (fun acc kv =>
      match kv.2.patternSearch with
      | some ps =>
          match ps path with
          | some m => aset acc kv.2.name m
          | none => acc
      | none => acc) []
  if strict then
    match ignoreStrict with
    | some ks => ks.foldl aremove parsed
    | none => parsed
  else parsed

/-- Layout.get_nearest, producing the raw matches list of File objects:
parse entities from the starting path, query candidate files, group them
by directory, and walk upward. -/
def Layout.getNearestMatches (L : Layout) (path : String)
    (strict : Bool) (allM : Bool) (ignoreStrict : Option (List String))
    (filters : List (String × Option (List Atom)))
    (extensions : Option (List String)) : List File :=
  let parsed := L.parsedPathEntities path strict ignoreStrict
  let results := L.getFiles filters extensions none none
  let folders := results.foldl
    (fun fl p =>
      match alookup L.files p with
      | some f =>
          let d := dirName f.path
          match alookup fl d with
          | some cur => aset fl d (cur ++ [f])
          | none => fl ++ [(d, [f])]
      | none => fl) []
  gnLoop folders parsed strict allM (path.length + 1) path []

/-- Layout.get_nearest with return_type file and all_ false: the first
match's path, or none. -/
def Layout.getNearestFile (L : Layout) (path : String) (strict : Bool)
    (ignoreStrict : Option (List String))
    (filters : List (String × Option (List Atom)))
    (extensions : Option (List String)) : Option String :=
  ((L.getNearestMatches path strict false ignoreStrict filters
      extensions).map File.path).head?

/-- Layout.parse_file_entities: a relative path needs an explicit domain
list; the path is then run through _index_file with update_layout false
and the resulting entity view returned (together with the state, which
_index_file still mutates through its unconditional file-map write). -/
def Layout.parseFileEntities (L : Layout) (filename : String)
    (domains : Option (List String)) :
    Layout × Option String × Option (List (String × Atom)) :=
  let sp := pathSplit filename
  if sp.1 = "" && domains = none then
    (L, some ("If a relative path is provided as the filename argument, " ++
      "you *must* specify the names of the domains whose entities are to " ++
      "be extracted."), none)
  else
    match L.indexFile sp.1 sp.2 domains false with
    | (L', none, some f) => (L', none, some f.entities)
    | (L', err, _) => (L', err, none)

/-! ### Concrete instances

Small closed layouts used to instantiate general theorems and to exhibit
counterexamples.  Entity extraction functions stand for compiled config
regexes and map each concrete path to its matched group. -/

/-- A Layout as built by the constructor before any config is loaded. -/
def emptyLayout : Layout :=
  { entities := [], aliasIds := [], files := [], mandatory := [], domains := [],
    includeRules := [], excludeRules := [], root := "ds", absolutePaths := true,
    regexSearch := false, configFilename := "layout.json" }

/-- An optional entity a that extracts a value from two paths. -/
def exSpecA : EntitySpec :=
  { name := "a", mandatory := false,
    patternSearch := some fun p =>
      if p = "ds/f.txt" then some "01"
      else if p = "ds/q.txt" then some "02" else none,
    mapFunc := none, dtype := none, directory := none, aliases := [] }

/-- A mandatory entity b whose pattern matches no path. -/
def exSpecB : EntitySpec :=
  { name := "b", mandatory := true,
    patternSearch := some fun _ => none,
    mapFunc := none, dtype := none, directory := none, aliases := [] }

/-- A domain config with the optional entity a and the mandatory entity b. -/
def exCfgD : Config :=
  { name := "d", root := some ["ds"], includeRules := [], excludeRules := [],
    extraDomains := [], pathPatterns := [], entities := [exSpecA, exSpecB] }

/-- A world with a single directory ds holding one file f.txt. -/
def exWorldD : World :=
  { tree := fun r => if r = "ds" then some (.node [] ["f.txt"]) else none,
    configAt := fun _ => none,
    pathExists := fun r => r = "ds" }

/-- The Layout after loading the d config (constructor state pre-index). -/
def exLayD0 : Layout := (emptyLayout.loadDomainCfg exWorldD exCfgD none true).1

/-- The Layout after its first index() pass. -/
def exLayD : Layout := (exLayD0.index exWorldD 9).1

/-- The file record that indexing produces for ds/f.txt: entity a matched,
the mandatory entity b did not (the break kept the earlier match). -/
def exFileF : File := ⟨"ds/f.txt", [("a", ⟨"d.a", "d", .str "01"⟩)]⟩

/-- subject entity of the get_nearest scenario. -/
def exSpecSubj : EntitySpec :=
  { name := "subject", mandatory := false,
    patternSearch := some fun p =>
      if p = "ds/sub-01/ses-1/bold.nii" then some "01"
      else if p = "ds/c1.tsv" then some "01"
      else if p = "ds/c2.tsv" then some "02" else none,
    mapFunc := none, dtype := none, directory := none, aliases := [] }

/-- session entity of the get_nearest scenario. -/
def exSpecSess : EntitySpec :=
  { name := "session", mandatory := false,
    patternSearch := some fun p =>
      if p = "ds/sub-01/ses-1/bold.nii" then some "1"
      else if p = "ds/c1.tsv" then some "1"
      else if p = "ds/c2.tsv" then some "1" else none,
    mapFunc := none, dtype := none, directory := none, aliases := [] }

/-- type entity of the get_nearest scenario. -/
def exSpecType : EntitySpec :=
  { name := "type", mandatory := false,
    patternSearch := some fun p =>
      if p = "ds/sub-01/ses-1/bold.nii" then some "bold"
      else if p = "ds/c1.tsv" then some "sessions"
      else if p = "ds/c2.tsv" then some "sessions" else none,
    mapFunc := none, dtype := none, directory := none, aliases := [] }

/-- Domain config of the get_nearest scenario. -/
def exCfgT : Config :=
  { name := "test", root := some ["ds"], includeRules := [], excludeRules := [],
    extraDomains := [], pathPatterns := [],
    entities := [exSpecSubj, exSpecSess, exSpecType] }

/-- World of the get_nearest scenario: two candidate files in ds. -/
def exWorldT : World :=
  { tree := fun r =>
      if r = "ds" then some (.node [] ["c1.tsv", "c2.tsv"]) else none,
    configAt := fun _ => none,
    pathExists := fun r => r = "ds" }

/-- Indexed Layout of the get_nearest scenario: candidate ds/c1.tsv is
tagged subject 01 / session 1 / type sessions, candidate ds/c2.tsv is
tagged subject 02 / session 1 / type sessions. -/
def exLayT : Layout :=
  ((emptyLayout.loadDomainCfg exWorldT exCfgT none true).1.index exWorldT 9).1

/-! ### Association-list lemmas -/

theorem alookup_aset {α : Type} (l : List (String × α)) (k k2 : String)
    (v : α) :
    alookup (aset l k v) k2 = if k = k2 then some v else alookup l k2 := by
  induction l with
  | nil => simp [aset, alookup]
  | cons kv rest ih =>
      by_cases h : kv.1 = k
      · subst h
        by_cases h2 : kv.1 = k2 <;> simp [aset, alookup, h2]
      · by_cases h2 : kv.1 = k2
        · subst h2
          simp [aset, alookup, h]
          rw [if_neg (show ¬k = kv.1 from fun he => h he.symm)]
        · simp [aset, alookup, h, h2, ih]

theorem alookup_map {α β : Type} (g : α → β) (l : List (String × α))
    (k : String) :
    alookup (l.map fun kv => (kv.1, g kv.2)) k = (alookup l k).map g := by
  induction l with
  | nil => simp [alookup]
  | cons kv rest ih =>
      by_cases h : kv.1 = k <;> simp [alookup, h, ih]

theorem amem_aset {α : Type} (l : List (String × α)) (k k2 : String) (v : α) :
    amem (aset l k v) k2 = (k = k2 || amem l k2) := by
  by_cases h : k = k2 <;> simp [amem, alookup_aset, h]

/-- Updating an existing key with a value that agrees under a projection
leaves the projected list unchanged (positions included). -/
theorem map_aset_congr {α β : Type} (g : α → β) (l : List (String × α))
    (k : String) (v vnew : α) (hl : alookup l k = some v) (hg : g vnew = g v) :
    ((aset l k vnew).map fun kv => (kv.1, g kv.2)) =
      l.map fun kv => (kv.1, g kv.2) := by
  induction l with
  | nil => simp [alookup] at hl
  | cons kv rest ih =>
      by_cases h : kv.1 = k
      · subst h
        simp [alookup] at hl
        simp [aset, hg, hl]
      · simp [alookup, h] at hl
        simp [aset, h, ih hl]

/-! ### Claim C6 -/

/-- C6: build_path on the pattern with an optional bracketed session
segment, given an entity map with subject 01 and run 2 but no session,
drops the optional segment and produces sub-01/run-2.txt. -/
theorem buildPath_drops_unresolvable_optional_segment :
    buildPath ["sub-{subject}/[ses-{session}/]run-{run}.txt"]
      [("subject", .str "01"), ("run", .str "2")] = some "sub-01/run-2.txt" := by
  decide

/-! ### Claim C7 -/

/-- C7: evaluating the source build_path at the repo's own test input for
default values: the pattern with a declared session default resolves to
none (the default is never substituted, because this revision of
replace_entities treats the whole braced text as an unknown entity name),
while the fallback to the next pattern for a missing required placeholder
without a default does work. -/
theorem buildPath_default_value_not_substituted :
    buildPath ["sess-{session|A}/r-{run}.nii.gz"] [("run", .int 3)] = none ∧
    buildPath ["r-{missing}.txt", "r-{run}.txt"] [("run", .int 3)] =
      some "r-3.txt" := by
  exact ⟨by decide, by decide⟩

/-! ### Claim C10 -/

/-- C10: a query filter binding an entity key to Python None matches a
file exactly when that key is absent from the file's tags, in either
matching mode. -/
theorem none_filter_inverts_existence (p k : String)
    (tags : List (String × Tag)) (rs : Bool) :
    fileMatches ⟨p, tags⟩ (some [(k, none)]) none none rs = true ↔
      alookup tags k = none := by
  cases h : alookup tags k <;>
    simp [fileMatches, matchesEntityFilters, amem, h]

/-! ### Claim C4 -/

/-- C4: a file tagged run 01 is matched by a query filtering run by the
integer 1, in exact mode and in regex-search mode alike, thanks to the
zero-star padding prepended to numeric filter values. -/
theorem numeric_filter_tolerates_zero_padding (p : String)
    (tags : List (String × Tag)) (t : Tag)
    (hlook : alookup tags "run" = some t) (hval : t.value = Atom.str "01") :
    fileMatches ⟨p, tags⟩ (some [("run", some [Atom.int 1])]) none none
        false = true ∧
    fileMatches ⟨p, tags⟩ (some [("run", some [Atom.int 1])]) none none
        true = true := by
  constructor <;>
    simp [fileMatches, matchesEntityFilters, amem, hlook, hval] <;>
    decide

/-- Witness for C4 at a concrete file. -/
theorem numeric_filter_tolerates_zero_padding_witness :
    fileMatches ⟨"x", [("run", ⟨"d.run", "d", .str "01"⟩)]⟩
        (some [("run", some [Atom.int 1])]) none none false = true ∧
    fileMatches ⟨"x", [("run", ⟨"d.run", "d", .str "01"⟩)]⟩
        (some [("run", some [Atom.int 1])]) none none true = true :=
  numeric_filter_tolerates_zero_padding "x"
    [("run", ⟨"d.run", "d", .str "01"⟩)] ⟨"d.run", "d", .str "01"⟩ rfl rfl

/-! ### Claim C8 -/

/-- C8: loading a config whose name is already registered raises the
duplicate-domain configuration error and returns the Layout exactly as it
was: no domain and no entity of the failed load is registered. -/
theorem duplicate_domain_load_rejected (L : Layout) (w : World)
    (cfg : Config) (root : Option (List String)) (fromInit : Bool)
    (h : amem L.domains cfg.name = true) :
    (L.loadDomainCfg w cfg root fromInit).1 = L ∧
    (L.loadDomainCfg w cfg root fromInit).2.isSome = true := by
  simp [Layout.loadDomainCfg, h]

/-- Witness for C8: reloading the d config on the Layout that already
holds domain d. -/
theorem duplicate_domain_load_rejected_witness :
    (exLayD0.loadDomainCfg exWorldD exCfgD none true).1 = exLayD0 ∧
    (exLayD0.loadDomainCfg exWorldD exCfgD none true).2.isSome = true :=
  duplicate_domain_load_rejected exLayD0 exWorldD exCfgD none true
    (by decide)

/-! ### Claim C9 -/

/-- With update_layout false, one domain step of _index_file leaves the
Layout untouched (only the File gains tags). -/
theorem indexFileDomainStep_no_update (L : Layout) (f : File) (dn : String)
    (d : Domain) :
    (indexFileDomainStep L f dn d false).1 = L := by
  simp [indexFileDomainStep]

/-- With update_layout false, the domain loop of _index_file leaves
entities and domains untouched; on success the file map gains exactly the
final File under its path; an error leaves the whole state untouched. -/
theorem indexFileGo_no_update (ds : List String) (L : Layout) (f : File) :
    (indexFileGo L f false ds).1.entities = L.entities ∧
    (indexFileGo L f false ds).1.domains = L.domains ∧
    ((indexFileGo L f false ds).2.1 = none →
      ∃ g : File, (indexFileGo L f false ds).2.2 = some g ∧
        (indexFileGo L f false ds).1.files = aset L.files g.path g) ∧
    ((indexFileGo L f false ds).2.1.isSome = true →
      (indexFileGo L f false ds).1 = L) := by
  induction ds generalizing f with
  | nil =>
      refine ⟨rfl, rfl, fun _ => ⟨f, rfl, rfl⟩, fun hco => ?_⟩
      simp [indexFileGo] at hco
  | cons d rest ih =>
      cases h : alookup L.domains d with
      | none => simp [indexFileGo, h]
      | some dom =>
          have hstep := indexFileDomainStep_no_update L f d dom
          have hgo : indexFileGo L f false (d :: rest) =
              indexFileGo L (indexFileDomainStep L f d dom false).2 false
                rest := by
            rw [show indexFileGo L f false (d :: rest) =
                indexFileGo (indexFileDomainStep L f d dom false).1
                  (indexFileDomainStep L f d dom false).2 false rest from by
              simp [indexFileGo, h]]
            rw [hstep]
          rw [hgo]
          exact ih _

/-- C9 amended: parse_file_entities leaves every Entity's path-to-value
map and every Domain's file list unchanged, but on success it writes the
parsed File into the Layout's file map (adding or overwriting the entry
for the parsed path); a raise leaves the state fully unchanged. -/
theorem parse_file_entities_frame (L : Layout) (filename : String)
    (doms : Option (List String)) :
    (L.parseFileEntities filename doms).1.entities = L.entities ∧
    (L.parseFileEntities filename doms).1.domains = L.domains ∧
    ((L.parseFileEntities filename doms).2.1 = none →
      ∃ g : File, (L.parseFileEntities filename doms).2.2 = some g.entities ∧
        (L.parseFileEntities filename doms).1.files = aset L.files g.path g) := by
  unfold Layout.parseFileEntities
  cases hrel : (decide ((pathSplit filename).1 = "") && decide (doms = none))
  case true =>
    simp only [hrel]
    exact ⟨rfl, rfl, by simp⟩
  case false =>
    simp only [hrel, Bool.false_eq_true, if_false]
    have hds := indexFileGo_no_update (doms.getD [])
      L ⟨pathJoin (pathSplit filename).1 (pathSplit filename).2, []⟩
    unfold Layout.indexFile
    rcases hres : indexFileGo L
        ⟨pathJoin (pathSplit filename).1 (pathSplit filename).2, []⟩ false
        (doms.getD []) with ⟨L2, err, fo⟩
    rw [hres] at hds
    obtain ⟨he, hd, hsucc, _herr⟩ := hds
    cases err with
    | none =>
        obtain ⟨g, hg, hfiles⟩ := hsucc rfl
        simp only at hg
        cases fo with
        | none => simp at hg
        | some fv =>
            simp only at he hd hfiles hg
            refine ⟨he, hd, fun _ => ⟨g, ?_, hfiles⟩⟩
            simp at hg
            simp [hg]
    | some e =>
        refine ⟨he, hd, fun hco => ?_⟩
        simp at hco

/-- C9 counterexample: parsing a fresh path with update_layout false still
grows the Layout's file map, contradicting the claim that the file map is
left unchanged. -/
theorem parse_file_entities_mutates_file_map :
    ¬ ((exLayD.parseFileEntities "ds/q.txt" (some ["d"])).1.files =
        exLayD.files) := by
  decide

/-- Witness for C9 amended, discharged on the concrete layout. -/
theorem parse_file_entities_frame_witness :
    (exLayD.parseFileEntities "ds/q.txt" (some ["d"])).1.entities =
        exLayD.entities ∧
    (exLayD.parseFileEntities "ds/q.txt" (some ["d"])).1.domains =
        exLayD.domains ∧
    ((exLayD.parseFileEntities "ds/q.txt" (some ["d"])).2.1 = none →
      ∃ g : File,
        (exLayD.parseFileEntities "ds/q.txt" (some ["d"])).2.2 =
            some g.entities ∧
        (exLayD.parseFileEntities "ds/q.txt" (some ["d"])).1.files =
            aset exLayD.files g.path g) :=
  parse_file_entities_frame exLayD "ds/q.txt" (some ["d"])

/-! ### Claim C2 -/

/-- Setting a key that is absent appends the pair at the end. -/
theorem aset_of_lookup_none {α : Type} (l : List (String × α)) (k : String)
    (v : α) (h : alookup l k = none) : aset l k v = l ++ [(k, v)] := by
  induction l with
  | nil => simp [aset]
  | cons kv rest ih =>
      by_cases hk : kv.1 = k
      · simp [alookup, hk] at h
      · simp [alookup, hk] at h
        simp [aset, hk, ih h]

/-- Lookup across an append when the key misses the first part. -/
theorem alookup_append_of_none {α : Type} (l1 l2 : List (String × α))
    (k : String) (h : alookup l1 k = none) :
    alookup (l1 ++ l2) k = alookup l2 k := by
  induction l1 with
  | nil => simp
  | cons kv rest ih =>
      by_cases hk : kv.1 = k
      · simp [alookup, hk] at h
      · simp [alookup, hk] at h ⊢
        exact ih h

/-- View of an Entity through its qualified id and domain name (the two
fields that tag reconstruction reads). -/
def Entity.idDom (e : Entity) : String × String := (e.id, e.domainName)

/-- entAddFile only changes the files component of the stored entity, so
any files-insensitive view of any lookup is unchanged. -/
theorem alookup_entAddFile_congr {β : Type} (g : Entity → β)
    (hg : ∀ (e : Entity) (x : List (String × Atom)),
      g { e with files := x } = g e)
    (es : List (String × Entity)) (eid p : String) (v : Atom) (k : String) :
    (alookup (entAddFile es eid p v) k).map g = (alookup es k).map g := by
  unfold entAddFile
  cases he : alookup es eid with
  | none => rfl
  | some e =>
      rw [alookup_aset]
      by_cases hk : eid = k
      · subst hk
        simp [he, hg]
      · simp [hk]

/-- A fold of entAddFile steps preserves files-insensitive views. -/
theorem foldl_entAddFile_congr {β γ : Type} (g : Entity → β)
    (hg : ∀ (e : Entity) (x : List (String × Atom)),
      g { e with files := x } = g e)
    (xs : List γ) (kf pf : γ → String) (vf : γ → Atom)
    (es : List (String × Entity)) (k : String) :
    (alookup (xs.foldl (fun a x => entAddFile a (kf x) (pf x) (vf x)) es)
        k).map g = (alookup es k).map g := by
  induction xs generalizing es with
  | nil => rfl
  | cons x rest ih =>
      rw [List.foldl_cons, ih, alookup_entAddFile_congr g hg]

/-- The dict comprehension of save_index on a file whose tag entity ids
are pairwise distinct lists the qualified pairs in tag order. -/
theorem tags_dict_of_nodup (ts : List (String × Tag))
    (acc : List (String × Atom))
    (hd : (ts.map fun kt => kt.2.entityId).Nodup)
    (hfresh : ∀ kt ∈ ts, alookup acc kt.2.entityId = none) :
    ts.foldl (fun a kt => aset a kt.2.entityId kt.2.value) acc =
      acc ++ ts.map fun kt => (kt.2.entityId, kt.2.value) := by
  induction ts generalizing acc with
  | nil => simp
  | cons kt rest ih =>
      simp only [List.map_cons, List.nodup_cons] at hd
      rw [List.foldl_cons,
        aset_of_lookup_none acc kt.2.entityId kt.2.value
          (hfresh kt (by simp))]
      rw [ih (acc ++ [(kt.2.entityId, kt.2.value)]) hd.2]
      · simp
      · intro kt2 hmem
        rw [alookup_append_of_none _ _ _ (hfresh kt2 (by simp [hmem]))]
        have hne : ¬kt.2.entityId = kt2.2.entityId := by
          intro hcontra
          exact hd.1 (hcontra ▸
            List.mem_map_of_mem (fun kt0 => kt0.2.entityId) hmem)
        simp [alookup, hne]

/-- Tag reconstruction on a saved qualified-pair list: with every id
resolvable to an entity carrying that id and the original domain name,
load_index rebuilds exactly the requalified tags. -/
theorem rebuildTags_of_tags (es : List (String × Entity))
    (ts : List (String × Tag))
    (h : ∀ kt ∈ ts, (alookup es (kt.2 : Tag).entityId).map Entity.idDom =
        some (kt.2.entityId, kt.2.domainName)) :
    rebuildTags es (ts.map fun kt => (kt.2.entityId, kt.2.value)) =
      some (ts.map fun kt =>
        (kt.2.entityId,
          (⟨kt.2.entityId, kt.2.domainName, kt.2.value⟩ : Tag))) := by
  induction ts with
  | nil => rfl
  | cons kt rest ih =>
      have hk := h kt (by simp)
      rcases he : alookup es kt.2.entityId with _ | e
      · rw [he] at hk
        simp at hk
      · rw [he] at hk
        simp [Entity.idDom] at hk
        have hrest := ih fun kt2 hm => h kt2 (by simp [hm])
        simp only [List.map_cons, rebuildTags, he, hrest]
        simp [hk.1, hk.2]

/-- The requalified image of a File after a save and trusting reload: the
same path, the same values, but tag keys replaced by qualified ids. -/
def reTag (f : File) : File :=
  ⟨f.path, f.tags.map fun kt =>
    (kt.2.entityId,
      (⟨kt.2.entityId, kt.2.domainName, kt.2.value⟩ : Tag))⟩

/-- A successful entry step folds on. -/
theorem loadLoop_cons_ok (r : Bool) (acc L2 : Layout)
    (e : String × List String × List (String × Atom))
    (data : List (String × List String × List (String × Atom)))
    (h : loadIndexStep acc r e = (L2, none)) :
    loadLoop r acc (e :: data) = loadLoop r L2 data := by
  simp [loadLoop, h]

/-- The load_index(reindex=False) loop over the saved entries of
well-formed files: no error, the file map rebuilt in order with each file
replaced by its requalified image, domains untouched, and the entity
table unchanged up to files-insensitive views. -/
theorem loadLoop_spec (Lref acc : Layout) (fl : List (String × File))
    (hview : ∀ k, (alookup acc.entities k).map Entity.idDom =
        (alookup Lref.entities k).map Entity.idDom)
    (hkey : ∀ pf ∈ fl, (pf.2 : File).path = pf.1)
    (hjoin : ∀ pf ∈ fl, pathJoin (pathSplit (pf.2 : File).path).1
        (pathSplit (pf.2 : File).path).2 = (pf.2 : File).path)
    (hres : ∀ pf ∈ fl, ∀ kt ∈ (pf.2 : File).tags,
        (alookup Lref.entities (kt.2 : Tag).entityId).map Entity.idDom =
          some (kt.2.entityId, kt.2.domainName))
    (htnd : ∀ pf ∈ fl,
        ((pf.2 : File).tags.map fun kt => kt.2.entityId).Nodup)
    (hfresh : ∀ pf ∈ fl, alookup acc.files pf.1 = none)
    (hknd : (fl.map fun pf => pf.1).Nodup) :
    (loadLoop false acc (fl.map fun kv => saveEntry kv.2)).2 = none ∧
    (loadLoop false acc (fl.map fun kv => saveEntry kv.2)).1.files =
      acc.files ++ fl.map (fun pf => (pf.1, reTag pf.2)) ∧
    (loadLoop false acc (fl.map fun kv => saveEntry kv.2)).1.domains =
      acc.domains ∧
    ∀ k, (alookup
        (loadLoop false acc (fl.map fun kv => saveEntry kv.2)).1.entities
          k).map Entity.idDom =
      (alookup Lref.entities k).map Entity.idDom := by
  induction fl generalizing acc with
  | nil => exact ⟨rfl, by simp [loadLoop], rfl, hview⟩
  | cons pf rest ih =>
      have hkey0 := hkey pf (by simp)
      have hjoin0 := hjoin pf (by simp)
      have htnd0 := htnd pf (by simp)
      have hfresh0 := hfresh pf (by simp)
      have hdict := tags_dict_of_nodup pf.2.tags [] htnd0
        (fun _ _ => by simp [alookup])
      have hreb := rebuildTags_of_tags acc.entities pf.2.tags
        (fun kt hm => by rw [hview]; exact hres pf (by simp) kt hm)
      have hpath1 : (reTag pf.2).path = pf.1 := by simp [reTag, hkey0]
      have hstep : loadIndexStep acc false (saveEntry pf.2) =
          ({ acc with
              files := acc.files ++ [(pf.1, reTag pf.2)],
              entities := (reTag pf.2).entities.foldl
                (fun es kv => entAddFile es kv.1 pf.1 kv.2)
                acc.entities }, none) := by
        unfold loadIndexStep saveEntry
        simp only [hdict, List.nil_append, Bool.false_eq_true, if_false,
          hreb]
        have hpj : pathJoin (pathSplit (pf.2 : File).path).1
            (pathSplit (pf.2 : File).path).2 = pf.1 := by
          rw [hjoin0, hkey0]
        rw [hpj]
        have hfile : (⟨pf.1,
            (pf.2 : File).tags.map fun kt =>
            (kt.2.entityId,
              (⟨kt.2.entityId, kt.2.domainName, kt.2.value⟩ : Tag))⟩ :
              File) = reTag pf.2 := by
          simp only [reTag, hkey0]
        simp only [hfile, hpath1]
        rw [aset_of_lookup_none _ _ _ hfresh0]
      have hloop := loadLoop_cons_ok false acc _ (saveEntry pf.2)
        (rest.map fun kv => saveEntry kv.2) hstep
      rw [List.map_cons, hloop]
      have hview2 : ∀ k,
          (alookup ((reTag pf.2).entities.foldl
            (fun es kv => entAddFile es kv.1 pf.1 kv.2)
            acc.entities) k).map Entity.idDom =
          (alookup Lref.entities k).map Entity.idDom := by
        intro k
        rw [foldl_entAddFile_congr Entity.idDom (fun e x => rfl) _ _ _ _]
        exact hview k
      have hrec := ih
        ({ acc with
            files := acc.files ++ [(pf.1, reTag pf.2)],
            entities := (reTag pf.2).entities.foldl
              (fun es kv => entAddFile es kv.1 pf.1 kv.2)
              acc.entities })
        hview2
        (fun q hq => hkey q (by simp [hq]))
        (fun q hq => hjoin q (by simp [hq]))
        (fun q hq => hres q (by simp [hq]))
        (fun q hq => htnd q (by simp [hq]))
        (fun q hq => by
          simp only
          rw [alookup_append_of_none _ _ _ (hfresh q (by simp [hq]))]
          have hne : ¬pf.1 = q.1 := by
            simp only [List.map_cons, List.nodup_cons] at hknd
            intro hcontra
            exact hknd.1 (hcontra ▸
              List.mem_map_of_mem (fun r => r.1) hq)
          simp [alookup, hne])
        (by
          simp only [List.map_cons, List.nodup_cons] at hknd
          exact hknd.2)
      refine ⟨hrec.1, ?_, hrec.2.2.1, hrec.2.2.2⟩
      rw [hrec.2.1]
      simp

/-- C2 amended: save_index then load_index(reindex=False) on a well-formed
indexed Layout succeeds, reproduces the file set (same paths, same order)
and preserves every file's entity values, but re-keys each file's tags by
qualified entity id (the requalified image reTag) instead of the original
entity-local names. -/
theorem save_load_round_trip (L : Layout)
    (hkey : ∀ pf ∈ L.files, (pf.2 : File).path = pf.1)
    (hjoin : ∀ pf ∈ L.files, pathJoin (pathSplit (pf.2 : File).path).1
        (pathSplit (pf.2 : File).path).2 = (pf.2 : File).path)
    (hres : ∀ pf ∈ L.files, ∀ kt ∈ (pf.2 : File).tags,
        (alookup L.entities (kt.2 : Tag).entityId).map Entity.idDom =
          some (kt.2.entityId, kt.2.domainName))
    (htnd : ∀ pf ∈ L.files,
        ((pf.2 : File).tags.map fun kt => kt.2.entityId).Nodup)
    (hknd : (L.files.map fun pf => pf.1).Nodup) :
    (L.loadIndex L.saveIndex false).2 = none ∧
    (L.loadIndex L.saveIndex false).1.files =
      L.files.map (fun pf => (pf.1, reTag pf.2)) ∧
    ∀ p, alookup (L.loadIndex L.saveIndex false).1.files p =
      (alookup L.files p).map reTag := by
  have hview : ∀ k, (alookup (L.resetIndex).entities k).map Entity.idDom =
      (alookup L.entities k).map Entity.idDom := by
    intro k
    show (alookup (L.entities.map fun kv =>
      (kv.1, resetEntity kv.2)) k).map Entity.idDom = _
    rw [alookup_map]
    cases alookup L.entities k <;> simp [Entity.idDom, resetEntity]
  have hmain := loadLoop_spec L L.resetIndex L.files hview hkey hjoin hres
    htnd (fun pf _ => by simp [Layout.resetIndex, alookup]) hknd
  have hfiles : (L.loadIndex L.saveIndex false).1.files =
      L.files.map (fun pf => (pf.1, reTag pf.2)) := by
    have := hmain.2.1
    simpa [Layout.resetIndex] using this
  refine ⟨hmain.1, hfiles, fun p => ?_⟩
  rw [hfiles, alookup_map]

/-- C2 counterexample: on the indexed example layout the claim fails as
stated, because after the round trip the file for ds/f.txt no longer
carries the same tag keys (the key a has become the qualified id d.a). -/
theorem round_trip_changes_tag_keys :
    ¬ ((alookup (exLayD.loadIndex exLayD.saveIndex false).1.files
          "ds/f.txt").map File.tags =
        (alookup exLayD.files "ds/f.txt").map File.tags) := by
  decide

/-- Witness for C2 amended on the concrete indexed layout. -/
theorem save_load_round_trip_witness :
    (exLayD.loadIndex exLayD.saveIndex false).2 = none ∧
    (exLayD.loadIndex exLayD.saveIndex false).1.files =
      exLayD.files.map (fun pf => (pf.1, reTag pf.2)) ∧
    ∀ p, alookup (exLayD.loadIndex exLayD.saveIndex false).1.files p =
      (alookup exLayD.files p).map reTag :=
  save_load_round_trip exLayD (by decide) (by decide) (by decide)
    (by decide) (by decide)

/-! ### Claim C5 -/

theorem mem_insertDescBy {α : Type} (key : α → Nat) (x a : α) (l : List α)
    (h : a ∈ insertDescBy key x l) : a = x ∨ a ∈ l := by
  induction l with
  | nil => simpa [insertDescBy] using h
  | cons y ys ih =>
      by_cases hk : key x > key y
      · simp only [insertDescBy, if_pos hk, List.mem_cons] at h
        rcases h with h | h | h
        · exact .inl h
        · exact .inr (by simp [h])
        · exact .inr (by simp [h])
      · simp only [insertDescBy, if_neg hk, List.mem_cons] at h
        rcases h with h | h
        · exact .inr (by simp [h])
        · rcases ih h with h2 | h2
          · exact .inl h2
          · exact .inr (by simp [h2])

theorem mem_sortDescBy_aux {α : Type} (key : α → Nat) (l acc : List α)
    (a : α) (h : a ∈ l.foldl (fun ac x => insertDescBy key x ac) acc) :
    a ∈ acc ∨ a ∈ l := by
  induction l generalizing acc with
  | nil => exact .inl (by simpa using h)
  | cons y ys ih =>
      rw [List.foldl_cons] at h
      rcases ih (insertDescBy key y acc) h with h2 | h2
      · rcases mem_insertDescBy key y a acc h2 with h3 | h3
        · exact .inr (by simp [h3])
        · exact .inl h3
      · exact .inr (by simp [h2])

/-- Membership in the Python stable descending sort implies membership in
the input. -/
theorem mem_sortDescBy {α : Type} (key : α → Nat) (l : List α) (a : α)
    (h : a ∈ sortDescBy key l) : a ∈ l := by
  rcases mem_sortDescBy_aux key l [] a h with h2 | h2
  · simp at h2
  · exact h2

/-- In strict mode the winning file of a directory, when one exists,
comes from the list filtered to shared-count equalling agreement-count. -/
theorem gnHereBest_strict (folders : List (String × List File))
    (parsed : List (String × String)) (path : String) :
    ∀ f ∈ gnHereBest folders parsed true path,
      (countMatches parsed f).1 = (countMatches parsed f).2 := by
  intro f hf
  unfold gnHereBest at hf
  simp only [if_true] at hf
  rcases hm : sortDescBy (fun x => x.2.2)
      ((((alookup folders path).getD []).map
        (fun g => (g, countMatches parsed g))).filter
        fun x => decide (x.2.1 = x.2.2)) with _ | ⟨x, xs⟩ <;>
    rw [hm] at hf
  · simp at hf
  · simp only [List.mem_singleton] at hf
    have hx : x ∈ sortDescBy (fun x => x.2.2)
        ((((alookup folders path).getD []).map
          (fun g => (g, countMatches parsed g))).filter
          fun x => decide (x.2.1 = x.2.2)) := by
      rw [hm]; simp
    have hx2 := mem_sortDescBy _ _ _ hx
    rw [List.mem_filter] at hx2
    rcases List.mem_map.mp hx2.1 with ⟨g, _, hg2⟩
    have hxeq := hx2.2
    rw [← hg2] at hxeq
    simp only [decide_eq_true_eq] at hxeq
    rw [hf, ← hg2]
    exact hxeq

/-- Strict-mode invariant of the upward walk: every file the walk returns
(beyond the starting accumulator) satisfies shared-count equals
agreement-count. -/
theorem gnLoop_strict_members (folders : List (String × List File))
    (parsed : List (String × String)) (allM : Bool) (fuel : Nat)
    (path : String) (acc : List File)
    (hacc : ∀ f ∈ acc,
      (countMatches parsed f).1 = (countMatches parsed f).2) :
    ∀ f ∈ gnLoop folders parsed true allM fuel path acc,
      (countMatches parsed f).1 = (countMatches parsed f).2 := by
  induction fuel generalizing path acc with
  | zero =>
      intro f hf
      rw [gnLoop] at hf
      have happ : ∀ g ∈ acc ++ gnHereBest folders parsed true path,
          (countMatches parsed g).1 = (countMatches parsed g).2 := by
        intro g hg
        rcases List.mem_append.mp hg with h | h
        · exact hacc g h
        · exact gnHereBest_strict folders parsed path g h
      cases hhit : (!((alookup folders path).getD []).isEmpty) <;>
        simp only [hhit] at hf <;>
        split_ifs at hf <;>
        first
          | exact hacc f hf
          | exact happ f hf
  | succ fuel ih =>
      intro f hf
      rw [gnLoop] at hf
      have happ : ∀ g ∈ acc ++ gnHereBest folders parsed true path,
          (countMatches parsed g).1 = (countMatches parsed g).2 := by
        intro g hg
        rcases List.mem_append.mp hg with h | h
        · exact hacc g h
        · exact gnHereBest_strict folders parsed path g h
      cases hhit : (!((alookup folders path).getD []).isEmpty) <;>
        simp only [hhit] at hf <;>
        split_ifs at hf <;>
        first
          | exact hacc f hf
          | exact happ f hf
          | exact ih _ _ hacc f hf
          | exact ih _ _ happ f hf

/-- The file record indexing produces for the agreeing candidate of the
get_nearest scenario. -/
def exC1File : File :=
  ⟨"ds/c1.tsv",
    [("subject", ⟨"test.subject", "test", .str "01"⟩),
     ("session", ⟨"test.session", "test", .str "1"⟩),
     ("type", ⟨"test.type", "test", .str "sessions"⟩)]⟩

/-- C5: in strict mode every candidate get_nearest returns agrees with
the starting path on all shared entities (shared-count equals
agreement-count), and in the concrete scenario (start path parsing to
subject 01, session 1, type bold; ancestor candidates subject 01 and
subject 02, both session 1 and type sessions; type excluded from strict
checking) only the subject-and-session-agreeing candidate ds/c1.tsv is
returned. -/
theorem get_nearest_strict_agreement :
    (∀ (L : Layout) (path : String) (allM : Bool)
        (ig : Option (List String))
        (fil : List (String × Option (List Atom)))
        (ext : Option (List String)) (f : File),
        f ∈ L.getNearestMatches path true allM ig fil ext →
        (countMatches (L.parsedPathEntities path true ig) f).1 =
          (countMatches (L.parsedPathEntities path true ig) f).2) ∧
    exLayT.getNearestFile "ds/sub-01/ses-1/bold.nii" true (some ["type"])
        [] none = some "ds/c1.tsv" ∧
    (exLayT.getNearestMatches "ds/sub-01/ses-1/bold.nii" true false
        (some ["type"]) [] none).map File.path = ["ds/c1.tsv"] := by
  refine ⟨?_, by decide, by decide⟩
  intro L path allM ig fil ext f hf
  unfold Layout.getNearestMatches at hf
  exact gnLoop_strict_members _ _ allM _ path [] (by simp) f hf

/-- Witness for C5's universally quantified part: the returned candidate
of the concrete scenario satisfies the agreement equation. -/
theorem get_nearest_strict_agreement_witness :
    (countMatches (exLayT.parsedPathEntities "ds/sub-01/ses-1/bold.nii"
        true (some ["type"])) exC1File).1 =
      (countMatches (exLayT.parsedPathEntities "ds/sub-01/ses-1/bold.nii"
        true (some ["type"])) exC1File).2 :=
  get_nearest_strict_agreement.1 exLayT "ds/sub-01/ses-1/bold.nii" false
    (some ["type"]) [] none exC1File (by decide)

/-! ### Claim C1 -/

/-- Whether the domain named dn contributed a tag to the file. -/
def domTagged (f : File) (dn : String) : Bool :=
  f.domains.contains dn

/-- Whether the file's tags include a value for every mandatory entity of
the domain named dn (vacuously true when the domain does not resolve). -/
def domMandatoryOk (L : Layout) (dn : String) (f : File) : Bool :=
  match alookup L.domains dn with
  | some d =>
      d.entityNames.all fun ne =>
        match alookup L.entities ne.2 with
        | some e => !e.mandatory || amem f.tags ne.1
        | none => true
  | none => true

/-- C1 counterexample: on the indexed example layout, the file ds/f.txt is
tagged by domain d, misses d's mandatory entity b, is tagged by no other
domain, and is still retained in the file index with its partial tag --
refuting the claim that such a file is not retained. -/
theorem mandatory_unsatisfied_file_retained :
    ¬ (∀ p f, alookup exLayD.files p = some f →
        ∀ dn, domTagged f dn = true →
          domMandatoryOk exLayD dn f = true ∨
          ∃ dn2, dn2 ≠ dn ∧ domTagged f dn2 = true ∧
            domMandatoryOk exLayD dn2 f = true) := by
  intro h
  have hfile : alookup exLayD.files "ds/f.txt" = some exFileF := by decide
  have htag : domTagged exFileF "d" = true := by decide
  rcases h "ds/f.txt" exFileF hfile "d" htag with hok | ⟨dn2, hne, htag2, _⟩
  · have hbad : domMandatoryOk exLayD "d" exFileF = false := by decide
    rw [hok] at hbad
    exact Bool.noConfusion hbad
  · have hdoms : exFileF.domains = ["d"] := by decide
    have : dn2 = "d" := by
      have := htag2
      unfold domTagged at this
      rw [hdoms] at this
      simpa using this
    exact hne this

/-- The per-entity view that _index_file's matching reads: the mandatory
flag, the owning domain name and the three extraction fields. -/
def Entity.mview (e : Entity) :
    Bool × String × Option (String → Option String) ×
      Option (String → Option Atom) × Option (Atom → Atom) :=
  (e.mandatory, e.domainName, e.patternSearch, e.mapFunc, e.dtype)

theorem matchFile_of_mview {e1 e2 : Entity} (h : e1.mview = e2.mview) :
    ∀ path, e1.matchFile path = e2.matchFile path := by
  intro path
  unfold Entity.mview at h
  simp only [Prod.mk.injEq] at h
  unfold Entity.matchFile
  rw [h.2.2.1, h.2.2.2.1, h.2.2.2.2]

/-- Updating one key with a value that agrees under a projection keeps all
projected lookups. -/
theorem alookup_aset_view {α β : Type} (g : α → β) (l : List (String × α))
    (k : String) (vold vnew : α) (hl : alookup l k = some vold)
    (hg : g vnew = g vold) (k2 : String) :
    (alookup (aset l k vnew) k2).map g = (alookup l k2).map g := by
  rw [alookup_aset]
  by_cases h : k = k2
  · subst h
    rw [hl]
    simp [hg]
  · simp [h]

/-- domainMatchVals only reads the mview of each entity. -/
theorem domainMatchVals_congr (es1 es2 : List (String × Entity))
    (hview : ∀ k, (alookup es1 k).map Entity.mview =
      (alookup es2 k).map Entity.mview) :
    ∀ (ns : List (String × String)) (path : String),
      domainMatchVals es1 ns path = domainMatchVals es2 ns path := by
  intro ns
  induction ns with
  | nil => intro path; rfl
  | cons ne rest ih =>
      intro path
      rcases ne with ⟨nm, eid⟩
      have hv := hview eid
      cases h1 : alookup es1 eid with
      | none =>
          rw [h1] at hv
          cases h2 : alookup es2 eid with
          | none => simp only [domainMatchVals, h1, h2]; exact ih path
          | some e2 => rw [h2] at hv; simp at hv
      | some e1 =>
          rw [h1] at hv
          cases h2 : alookup es2 eid with
          | none => rw [h2] at hv; simp at hv
          | some e2 =>
              rw [h2] at hv
              simp only [Option.map_some', Option.some.injEq] at hv
              have hmv : e1.mview = e2.mview := hv
              have hmf := matchFile_of_mview hmv path
              have hmand : e1.mandatory = e2.mandatory := by
                have := congrArg Prod.fst hmv
                simpa [Entity.mview] using this
              have hdom : e1.domainName = e2.domainName := by
                have := congrArg (fun x => x.2.1) hmv
                simpa [Entity.mview] using this
              simp only [domainMatchVals, h1, h2]
              rw [hmf]
              cases hm : e2.matchFile path with
              | none =>
                  simp only [hm]
                  rw [hmand]
                  by_cases hb : e2.mandatory <;> simp [hb, ih path]
              | some v =>
                  simp only [hm]
                  rw [hdom, ih path]

/-- When every mandatory entity of the list matches the path, every
mandatory entity's local name appears in the collected match values. -/
theorem domainMatchVals_mandatory_mem (es : List (String × Entity))
    (ns : List (String × String)) (path : String)
    (hall : ∀ nm eid e, (nm, eid) ∈ ns → alookup es eid = some e →
      e.mandatory = true → (e.matchFile path).isSome = true) :
    ∀ nm eid e, (nm, eid) ∈ ns → alookup es eid = some e →
      e.mandatory = true → ∃ t, (nm, t) ∈ domainMatchVals es ns path := by
  induction ns with
  | nil => intro nm eid e hmem; simp at hmem
  | cons ne rest ih =>
      intro nm eid e hmem hlook hmand
      rcases ne with ⟨nm0, eid0⟩
      rw [domainMatchVals]
      cases h0 : alookup es eid0 with
      | none =>
          rcases List.mem_cons.mp hmem with hh | hh
          · rw [Prod.mk.injEq] at hh
            rw [hh.2] at hlook
            rw [h0] at hlook
            exact Option.noConfusion hlook
          · exact ih (fun a b c hm => hall a b c (by simp [hm])) nm eid e hh
              hlook hmand
      | some e0 =>
          cases hm0 : e0.matchFile path with
          | none =>
              have hnm0 : e0.mandatory = false := by
                by_contra hc
                have := hall nm0 eid0 e0 (by simp) h0
                  (Bool.of_not_eq_false hc)
                rw [hm0] at this
                simp at this
              simp only [hm0, hnm0, Bool.false_eq_true, if_false]
              rcases List.mem_cons.mp hmem with hh | hh
              · rw [Prod.mk.injEq] at hh
                have he : e = e0 := by
                  rw [hh.2] at hlook
                  rw [h0] at hlook
                  exact (Option.some.injEq _ _ ▸ hlook).symm
                rw [he] at hmand
                rw [hmand] at hnm0
                exact Bool.noConfusion hnm0
              · exact ih (fun a b c hm => hall a b c (by simp [hm])) nm eid
                  e hh hlook hmand
          | some v =>
              simp only [hm0]
              rcases List.mem_cons.mp hmem with hh | hh
              · rw [Prod.mk.injEq] at hh
                exact ⟨⟨eid0, e0.domainName, v⟩, by simp [hh.1]⟩
              · rcases ih (fun a b c hm => hall a b c (by simp [hm])) nm eid
                  e hh hlook hmand with ⟨t, ht⟩
                exact ⟨t, by simp [ht]⟩

/-- The tag fold of _index_file over Files, reduced to a fold over tag
lists; the path is untouched. -/
theorem tags_foldl_files (mv : List (String × Tag)) (f : File) :
    (mv.foldl (fun fc nt => { fc with tags := aset fc.tags nt.1 nt.2 })
        f).tags = mv.foldl (fun a nt => aset a nt.1 nt.2) f.tags ∧
    (mv.foldl (fun fc nt => { fc with tags := aset fc.tags nt.1 nt.2 })
        f).path = f.path := by
  induction mv generalizing f with
  | nil => exact ⟨rfl, rfl⟩
  | cons nt rest ih =>
      rw [List.foldl_cons, List.foldl_cons]
      exact ih _

/-- Key membership survives a tag-fold. -/
theorem amem_foldl_aset_mono (mv : List (String × Tag))
    (ts : List (String × Tag)) (nm : String) (h : amem ts nm = true) :
    amem (mv.foldl (fun a nt => aset a nt.1 nt.2) ts) nm = true := by
  induction mv generalizing ts with
  | nil => exact h
  | cons nt rest ih =>
      rw [List.foldl_cons]
      exact ih _ (by rw [amem_aset, h]; simp)

/-- A key present in the folded match values becomes a tag key. -/
theorem amem_foldl_aset_of_mem (mv : List (String × Tag))
    (ts : List (String × Tag)) (nm : String) (t : Tag)
    (h : (nm, t) ∈ mv) :
    amem (mv.foldl (fun a nt => aset a nt.1 nt.2) ts) nm = true := by
  induction mv generalizing ts with
  | nil => simp at h
  | cons nt rest ih =>
      rw [List.foldl_cons]
      rcases List.mem_cons.mp h with hh | hh
      · exact amem_foldl_aset_mono rest _ nm
          (by rw [← hh, amem_aset]; simp)
      · exact ih _ hh

/-- The update_layout branch of one _index_file domain step, spelled out. -/
theorem indexFileDomainStep_true (L : Layout) (f : File) (dn : String)
    (d : Domain) :
    indexFileDomainStep L f dn d true =
      ({ L with
          entities := (domainMatchVals L.entities d.entityNames f.path).foldl
            (fun es nt => entAddFile es nt.2.entityId f.path nt.2.value)
            L.entities,
          domains := aset L.domains dn
            { d with files := d.files ++
                [((domainMatchVals L.entities d.entityNames f.path).foldl
                  (fun fc nt => { fc with tags := aset fc.tags nt.1 nt.2 })
                  f).path] } },
        (domainMatchVals L.entities d.entityNames f.path).foldl
          (fun fc nt => { fc with tags := aset fc.tags nt.1 nt.2 }) f) := by
  simp [indexFileDomainStep]

/-- Retention and mandatory-tagging of the _index_file domain loop: a
successful run returns a file recorded in the file map under its own
path, whose tag keys extend the input file's, and which carries a tag for
every mandatory entity of any processed domain whose mandatory entities
all match the path.  The auxiliary layout L0 supplies the reference
views, unchanged along the loop. -/
theorem indexFileGo_spec (ds : List String) (L L0 : Layout) (f : File)
    (L2 : Layout) (fr : File)
    (hviewE : ∀ k, (alookup L.entities k).map Entity.mview =
        (alookup L0.entities k).map Entity.mview)
    (hviewD : ∀ k, (alookup L.domains k).map Domain.entityNames =
        (alookup L0.domains k).map Domain.entityNames)
    (hgo : indexFileGo L f true ds = (L2, none, some fr)) :
    fr.path = f.path ∧
    alookup L2.files fr.path = some fr ∧
    (∀ nm, amem f.tags nm = true → amem fr.tags nm = true) ∧
    (∀ dn ∈ ds, ∀ d, alookup L0.domains dn = some d →
      (∀ nm eid e, (nm, eid) ∈ d.entityNames →
        alookup L0.entities eid = some e → e.mandatory = true →
        (e.matchFile f.path).isSome = true) →
      ∀ nm eid e, (nm, eid) ∈ d.entityNames →
        alookup L0.entities eid = some e → e.mandatory = true →
        amem fr.tags nm = true) := by
  induction ds generalizing L f with
  | nil =>
      rw [indexFileGo] at hgo
      rw [Prod.mk.injEq, Prod.mk.injEq] at hgo
      obtain ⟨h1, _, h3⟩ := hgo
      have hfr : f = fr := by injection h3
      subst hfr
      refine ⟨rfl, ?_, fun nm h => h, by simp⟩
      rw [← h1]
      simp only
      rw [alookup_aset]
      simp
  | cons dn rest ih =>
      rw [indexFileGo] at hgo
      cases hd : alookup L.domains dn with
      | none =>
          rw [hd] at hgo
          rw [Prod.mk.injEq, Prod.mk.injEq] at hgo
          exact Option.noConfusion hgo.2.1
      | some dom =>
          rw [hd] at hgo
          simp only [indexFileDomainStep_true] at hgo
          set mv := domainMatchVals L.entities dom.entityNames f.path
            with hmv
          set f2 := mv.foldl
            (fun fc nt => { fc with tags := aset fc.tags nt.1 nt.2 }) f
            with hf2
          have hf2tags : f2.tags = mv.foldl
              (fun a nt => aset a nt.1 nt.2) f.tags :=
            (tags_foldl_files mv f).1
          have hf2path : f2.path = f.path := (tags_foldl_files mv f).2
          have hviewE2 : ∀ k,
              (alookup (mv.foldl (fun es nt =>
                entAddFile es nt.2.entityId f.path nt.2.value)
                L.entities) k).map Entity.mview =
              (alookup L0.entities k).map Entity.mview := by
            intro k
            rw [foldl_entAddFile_congr Entity.mview (fun e x => rfl)]
            exact hviewE k
          have hviewD2 : ∀ k,
              (alookup (aset L.domains dn
                ({ dom with files := dom.files ++ [f2.path] })) k).map
                Domain.entityNames =
              (alookup L0.domains k).map Domain.entityNames := by
            intro k
            rw [alookup_aset_view Domain.entityNames L.domains dn dom
              ({ dom with files := dom.files ++ [f2.path] }) hd rfl]
            exact hviewD k
          have hrec := ih _ f2 hviewE2 hviewD2 hgo
      -- assemble
          obtain ⟨hp, hl, hmono, hds⟩ := hrec
          have hmono2 : ∀ nm, amem f.tags nm = true →
              amem fr.tags nm = true := by
            intro nm h
            exact hmono nm (by rw [hf2tags]; exact
              amem_foldl_aset_mono mv f.tags nm h)
          refine ⟨by rw [hp, hf2path], hl, hmono2, ?_⟩
          intro dn2 hmem d hd0 hall nm eid e hne hle hman
          rcases List.mem_cons.mp hmem with hh | hh
          · -- dn2 = dn: the current domain step tagged it
            subst hh
            have hnames : dom.entityNames = d.entityNames := by
              have := hviewD dn2
              rw [hd, hd0] at this
              simpa using this
            have hallL : ∀ nm2 eid2 e2, (nm2, eid2) ∈ dom.entityNames →
                alookup L.entities eid2 = some e2 → e2.mandatory = true →
                (e2.matchFile f.path).isSome = true := by
              intro nm2 eid2 e2 hne2 hle2 hman2
              have hv := hviewE eid2
              rw [hle2] at hv
              cases hl0 : alookup L0.entities eid2 with
              | none => rw [hl0] at hv; simp at hv
              | some e0 =>
                  rw [hl0] at hv
                  simp only [Option.map_some', Option.some.injEq] at hv
                  have hmf := matchFile_of_mview hv f.path
                  have hmd : e2.mandatory = e0.mandatory := by
                    have := congrArg Prod.fst hv
                    simpa [Entity.mview] using this
                  rw [hmf]
                  exact hall nm2 eid2 e0 (by rw [← hnames]; exact hne2)
                    hl0 (by rw [← hmd]; exact hman2)
            have hLe : ∃ eL, alookup L.entities eid = some eL ∧
                eL.mandatory = true := by
              have hv := hviewE eid
              rw [hle] at hv
              cases hlL : alookup L.entities eid with
              | none => rw [hlL] at hv; simp at hv
              | some eL =>
                  rw [hlL] at hv
                  simp only [Option.map_some', Option.some.injEq] at hv
                  have hmd : eL.mandatory = e.mandatory := by
                    have := congrArg Prod.fst hv
                    simpa [Entity.mview] using this
                  exact ⟨eL, rfl, by rw [hmd]; exact hman⟩
            obtain ⟨eL, hlL, hmanL⟩ := hLe
            obtain ⟨t, ht⟩ := domainMatchVals_mandatory_mem L.entities
              dom.entityNames f.path hallL nm eid eL
              (by rw [hnames]; exact hne) hlL hmanL
            exact hmono nm (by
              rw [hf2tags]
              exact amem_foldl_aset_of_mem mv f.tags nm t ht)
          · -- dn2 in the remaining domains: the recursive result covers it
            have := hds dn2 hh d hd0
            rw [hf2path] at this
            exact this hall nm eid e hne hle hman

/-- A successful domain loop always returns a file. -/
theorem indexFileGo_ok_shape (ds : List String) (L : Layout) (f : File)
    (u : Bool) (L2 : Layout) (fo : Option File)
    (h : indexFileGo L f u ds = (L2, none, fo)) : ∃ fr, fo = some fr := by
  induction ds generalizing L f with
  | nil =>
      rw [indexFileGo] at h
      rw [Prod.mk.injEq, Prod.mk.injEq] at h
      exact ⟨f, h.2.2.symm⟩
  | cons dn rest ih =>
      rw [indexFileGo] at h
      cases hd : alookup L.domains dn with
      | none =>
          rw [hd] at h
          rw [Prod.mk.injEq, Prod.mk.injEq] at h
          exact Option.noConfusion h.2.1
      | some dom =>
          rw [hd] at h
          exact ih _ _ h

/-- One domain step never touches the file map. -/
theorem indexFileDomainStep_files (L : Layout) (f : File) (dn : String)
    (d : Domain) (u : Bool) :
    (indexFileDomainStep L f dn d u).1.files = L.files := by
  cases u <;> simp [indexFileDomainStep]

/-- The domain loop never removes file-map entries. -/
theorem indexFileGo_files_mono (ds : List String) (L : Layout) (f : File)
    (u : Bool) (L2 : Layout) (err : Option String) (fo : Option File)
    (h : indexFileGo L f u ds = (L2, err, fo)) :
    ∀ q, amem L.files q = true → amem L2.files q = true := by
  induction ds generalizing L f with
  | nil =>
      rw [indexFileGo] at h
      rw [Prod.mk.injEq] at h
      intro q hq
      rw [← h.1]
      simp only
      rw [amem_aset, hq]
      simp
  | cons dn rest ih =>
      rw [indexFileGo] at h
      cases hd : alookup L.domains dn with
      | none =>
          rw [hd] at h
          rw [Prod.mk.injEq] at h
          intro q hq
          rw [← h.1]
          exact hq
      | some dom =>
          rw [hd] at h
          intro q hq
          exact ih _ _ h q
            (by rw [indexFileDomainStep_files]; exact hq)

/-- The final loop of index() retains every already-present file and adds
every candidate (whose path survives a split-join round trip). -/
theorem indexFilesLoop_retains
    (fti : List (String × List String)) (acc L2 : Layout)
    (h : indexFilesLoop acc fti = (L2, none))
    (hjoin : ∀ pds ∈ fti,
      pathJoin (pathSplit (pds.1 : String)).1 (pathSplit pds.1).2 = pds.1) :
    (∀ q, amem acc.files q = true → amem L2.files q = true) ∧
    (∀ pds ∈ fti, amem L2.files pds.1 = true) := by
  induction fti generalizing acc with
  | nil =>
      rw [indexFilesLoop] at h
      rw [Prod.mk.injEq] at h
      exact ⟨fun q hq => by rw [← h.1]; exact hq, by simp⟩
  | cons pds rest ih =>
      rw [indexFilesLoop] at h
      rcases hstep : acc.indexFile (pathSplit pds.1).1 (pathSplit pds.1).2
          (some pds.2) true with ⟨L3, err, fo⟩
      rw [hstep] at h
      cases err with
      | some e => simp at h
      | none =>
          simp only at h
          obtain ⟨fr, hfr⟩ := indexFileGo_ok_shape _ _ _ _ _ _ hstep
          subst hfr
          have hspec := indexFileGo_spec pds.2 acc acc _ _ fr
            (fun k => rfl) (fun k => rfl) hstep
          have hrec := ih _ h (fun q hq => hjoin q (by simp [hq]))
          refine ⟨fun q hq => hrec.1 q ?_, ?_⟩
          · exact indexFileGo_files_mono _ _ _ _ _ _ _ hstep q hq
          · intro q hq
            rcases List.mem_cons.mp hq with hh | hh
            · subst hh
              refine hrec.1 q.1 ?_
              have := hspec.2.1
              rw [hspec.1] at this
              have hpq : (⟨pathJoin (pathSplit q.1).1 (pathSplit q.1).2,
                  ([] : List (String × Tag))⟩ : File).path = q.1 := by
                simpa using hjoin q (by simp)
              rw [hpq] at this
              rw [amem, this]
              rfl
            · exact hrec.2 q hh

/-- The extra-config loop is a no-op on an empty worklist. -/
theorem extraConfigLoop_nil (L : Layout) (w : World)
    (fti : List (String × List String)) (pos fuel : Nat) :
    extraConfigLoop L w fti [] pos fuel = (L, fti, none) := by
  cases fuel <;> simp [extraConfigLoop]

/-- C1 amended, part at the level of index(): when the walk discovers no
directory config files, a successful index() retains in the file map
every candidate path gathered by the walk (whatever its mandatory-entity
status); and at the level of _index_file: a successful call records the
produced file in the file map under the joined path, and the file carries
a tag for every mandatory entity of each requested domain whose mandatory
entities all match the path (entities matched before a failing mandatory
entity keep their tags, as the counterexample shows, so files are never
dropped for mandatory-entity failure). -/
theorem index_mandatory_amended :
    (∀ (L : Layout) (root base : String) (ds : List String) (L2 : Layout)
        (fr : File),
      L.indexFile root base (some ds) true = (L2, none, some fr) →
      fr.path = pathJoin root base ∧
      alookup L2.files fr.path = some fr ∧
      ∀ dn ∈ ds, ∀ d, alookup L.domains dn = some d →
        (∀ nm eid e, (nm, eid) ∈ d.entityNames →
          alookup L.entities eid = some e → e.mandatory = true →
          (e.matchFile (pathJoin root base)).isSome = true) →
        ∀ nm eid e, (nm, eid) ∈ d.entityNames →
          alookup L.entities eid = some e → e.mandatory = true →
          amem fr.tags nm = true) ∧
    (∀ (L : Layout) (w : World) (fuel : Nat) (L2 : Layout),
      (L.indexInit w).2 = [] →
      L.index w fuel = (L2, none) →
      (∀ pds ∈ (L.indexInit w).1,
        pathJoin (pathSplit (pds.1 : String)).1 (pathSplit pds.1).2 =
          pds.1) →
      ∀ pds ∈ (L.indexInit w).1, amem L2.files pds.1 = true) := by
  constructor
  · intro L root base ds L2 fr hgo
    have hspec := indexFileGo_spec ds L L ⟨pathJoin root base, []⟩ L2 fr
      (fun k => rfl) (fun k => rfl) hgo
    exact ⟨hspec.1, hspec.2.1, fun dn hdn d hd hall =>
      hspec.2.2.2 dn hdn d hd hall⟩
  · intro L w fuel L2 hnc hok hjoin
    have hok2 : (match extraConfigLoop L.resetIndex w (L.indexInit w).1
        (L.indexInit w).2 0 fuel with
      | (L3, fti, none) => indexFilesLoop L3 fti
      | (L3, _, some err) => (L3, some err)) = (L2, none) := hok
    rw [hnc, extraConfigLoop_nil] at hok2
    exact (indexFilesLoop_retains _ _ _ hok2 hjoin).2

/-- Witness for C1 amended, discharged on the concrete layout: indexing
ds/f.txt in domain d succeeds and the amended conclusions hold there. -/
theorem index_mandatory_amended_witness :
    amem ((exLayD0.index exWorldD 9).1).files "ds/f.txt" = true :=
  index_mandatory_amended.2 exLayD0 exWorldD 9 (exLayD0.index exWorldD 9).1
    (by decide)
    (by
      have h2 : (exLayD0.index exWorldD 9).2 = none := by decide
      calc exLayD0.index exWorldD 9
          = ((exLayD0.index exWorldD 9).1,
             (exLayD0.index exWorldD 9).2) := rfl
        _ = ((exLayD0.index exWorldD 9).1, none) := by rw [h2])
    (by decide) ("ds/f.txt", ["d"]) (by decide)

/-! ### Claim C3 -/

/-- A Domain stripped of its accumulated file list (the part of the domain
state that _reset_index does not clear). -/
def Domain.static (d : Domain) : Domain :=
  { d with files := [] }

/-- The static view of a domain table: every stored Domain with its file
list cleared. -/
def domStaticMap (ds : List (String × Domain)) : List (String × Domain) :=
  ds.map fun kv => (kv.1, Domain.static kv.2)

/-- The reset view of an entity table: every stored Entity with its file
map cleared (what _reset_index produces). -/
def entResetMap (es : List (String × Entity)) : List (String × Entity) :=
  es.map fun kv => (kv.1, resetEntity kv.2)

theorem entResetMap_idem (es : List (String × Entity)) :
    entResetMap (entResetMap es) = entResetMap es := by
  induction es with
  | nil => rfl
  | cons kv rest ih =>
      show (kv.1, resetEntity (resetEntity kv.2)) :: entResetMap (entResetMap rest)
        = (kv.1, resetEntity kv.2) :: entResetMap rest
      rw [ih]
      rfl

/-- Re-setting an existing key with a domain of the same static view
leaves the static view of the table unchanged. -/
theorem domStaticMap_aset_self (l : List (String × Domain)) (k : String)
    (v : Domain) (fs : List String) (hl : alookup l k = some v) :
    domStaticMap (aset l k { v with files := fs }) = domStaticMap l :=
  map_aset_congr Domain.static l k v _ hl rfl

/-- Entity.add_file does not change the reset view of the entity table. -/
theorem entResetMap_entAddFile (es : List (String × Entity)) (eid p : String)
    (v : Atom) :
    entResetMap (entAddFile es eid p v) = entResetMap es := by
  unfold entAddFile
  cases he : alookup es eid with
  | none => rfl
  | some e => exact map_aset_congr resetEntity es eid e _ he rfl

theorem entResetMap_foldl_entAddFile (mv : List (String × Tag))
    (es : List (String × Entity)) (p : String) :
    entResetMap (mv.foldl
      (fun a nt => entAddFile a nt.2.entityId p nt.2.value) es) =
      entResetMap es := by
  induction mv generalizing es with
  | nil => rfl
  | cons nt rest ih => rw [List.foldl_cons, ih, entResetMap_entAddFile]

/-- The file returned by one _index_file domain step, spelled out (it does
not depend on update_layout). -/
theorem indexFileDomainStep_snd (L : Layout) (f : File) (dn : String)
    (d : Domain) (u : Bool) :
    (indexFileDomainStep L f dn d u).2 =
      (domainMatchVals L.entities d.entityNames f.path).foldl
        (fun fc nt => { fc with tags := aset fc.tags nt.1 nt.2 }) f := by
  cases u <;> simp [indexFileDomainStep]

/-- The entity table after one updating _index_file domain step, spelled
out. -/
theorem indexFileDomainStep_entities (L : Layout) (f : File) (dn : String)
    (d : Domain) :
    (indexFileDomainStep L f dn d true).1.entities =
      (domainMatchVals L.entities d.entityNames f.path).foldl
        (fun es nt => entAddFile es nt.2.entityId f.path nt.2.value)
        L.entities := by
  simp [indexFileDomainStep]

/-- The domain table after one updating _index_file domain step, spelled
out. -/
theorem indexFileDomainStep_domains (L : Layout) (f : File) (dn : String)
    (d : Domain) :
    (indexFileDomainStep L f dn d true).1.domains =
      aset L.domains dn
        { d with files := d.files ++
            [((domainMatchVals L.entities d.entityNames f.path).foldl
              (fun fc nt => { fc with tags := aset fc.tags nt.1 nt.2 })
              f).path] } := by
  simp [indexFileDomainStep]

/-- One updating _index_file domain step preserves the walk-relevant
projections of the Layout. -/
theorem indexFileDomainStep_views (L : Layout) (f : File) (dn : String)
    (d : Domain) (u : Bool) :
    (indexFileDomainStep L f dn d u).1.root = L.root ∧
    (indexFileDomainStep L f dn d u).1.configFilename = L.configFilename ∧
    (indexFileDomainStep L f dn d u).1.absolutePaths = L.absolutePaths ∧
    (indexFileDomainStep L f dn d u).1.includeRules = L.includeRules ∧
    (indexFileDomainStep L f dn d u).1.excludeRules = L.excludeRules := by
  cases u <;> simp [indexFileDomainStep]

/-- Along the _index_file domain loop the reset view of the entity table,
the static view of the domain table and the walk-relevant projections are
all preserved. -/
theorem indexFileGo_preserves (ds : List String) (L : Layout) (f : File)
    (L2 : Layout) (r : Option String × Option File)
    (h : indexFileGo L f true ds = (L2, r)) :
    entResetMap L2.entities = entResetMap L.entities ∧
    domStaticMap L2.domains = domStaticMap L.domains ∧
    L2.root = L.root ∧ L2.configFilename = L.configFilename ∧
    L2.absolutePaths = L.absolutePaths ∧
    L2.includeRules = L.includeRules ∧
    L2.excludeRules = L.excludeRules := by
  induction ds generalizing L f with
  | nil =>
      rw [indexFileGo, Prod.mk.injEq] at h
      rw [← h.1]
      exact ⟨rfl, rfl, rfl, rfl, rfl, rfl, rfl⟩
  | cons dn rest ih =>
      rw [indexFileGo] at h
      cases hd : alookup L.domains dn with
      | none =>
          rw [hd] at h
          rw [Prod.mk.injEq] at h
          rw [← h.1]
          exact ⟨rfl, rfl, rfl, rfl, rfl, rfl, rfl⟩
      | some d =>
          rw [hd] at h
          have hrec := ih _ _ h
          have hv := indexFileDomainStep_views L f dn d true
          refine ⟨?_, ?_, ?_, ?_, ?_, ?_, ?_⟩
          · rw [hrec.1, indexFileDomainStep_entities,
              entResetMap_foldl_entAddFile]
          · rw [hrec.2.1, indexFileDomainStep_domains,
              domStaticMap_aset_self L.domains dn d _ hd]
          · rw [hrec.2.2.1, hv.1]
          · rw [hrec.2.2.2.1, hv.2.1]
          · rw [hrec.2.2.2.2.1, hv.2.2.1]
          · rw [hrec.2.2.2.2.2.1, hv.2.2.2.1]
          · rw [hrec.2.2.2.2.2.2, hv.2.2.2.2]

/-- Along the final loop of index() the reset view of the entity table,
the static view of the domain table and the walk-relevant projections are
all preserved, whether or not the loop raises. -/
theorem indexFilesLoop_preserves (fti : List (String × List String))
    (L L2 : Layout) (r : Option String)
    (h : indexFilesLoop L fti = (L2, r)) :
    entResetMap L2.entities = entResetMap L.entities ∧
    domStaticMap L2.domains = domStaticMap L.domains ∧
    L2.root = L.root ∧ L2.configFilename = L.configFilename ∧
    L2.absolutePaths = L.absolutePaths ∧
    L2.includeRules = L.includeRules ∧
    L2.excludeRules = L.excludeRules := by
  induction fti generalizing L with
  | nil =>
      rw [indexFilesLoop, Prod.mk.injEq] at h
      rw [← h.1]
      exact ⟨rfl, rfl, rfl, rfl, rfl, rfl, rfl⟩
  | cons pds rest ih =>
      rw [indexFilesLoop] at h
      rcases hs : L.indexFile (pathSplit pds.1).1 (pathSplit pds.1).2
          (some pds.2) true with ⟨L3, err, fo⟩
      rw [hs] at h
      have hgo := indexFileGo_preserves pds.2 L
        ⟨pathJoin (pathSplit pds.1).1 (pathSplit pds.1).2, []⟩ L3 (err, fo) hs
      cases err with
      | none =>
          have h2 : indexFilesLoop L3 rest = (L2, r) := h
          have hrec := ih _ h2
          exact ⟨hrec.1.trans hgo.1, hrec.2.1.trans hgo.2.1,
            hrec.2.2.1.trans hgo.2.2.1,
            hrec.2.2.2.1.trans hgo.2.2.2.1,
            hrec.2.2.2.2.1.trans hgo.2.2.2.2.1,
            hrec.2.2.2.2.2.1.trans hgo.2.2.2.2.2.1,
            hrec.2.2.2.2.2.2.trans hgo.2.2.2.2.2.2⟩
      | some e =>
          have h2 : (L3, some e) = ((L2 : Layout), r) := h
          rw [Prod.mk.injEq] at h2
          rw [← h2.1]
          exact hgo

/-- The per-file walk step of _index_domain_files is congruent in the
walk-relevant projections of the Layout and the static view of the
domain. -/
theorem indexDomainFilesStep_congr (L L2 : Layout) (d d2 : Domain)
    (h1 : L.root = L2.root) (h2 : L.configFilename = L2.configFilename)
    (h3 : L.absolutePaths = L2.absolutePaths)
    (h4 : L.includeRules = L2.includeRules)
    (h5 : L.excludeRules = L2.excludeRules)
    (hd : Domain.static d = Domain.static d2) :
    ∀ (ds : List String) (a : List (String × List String) × List String)
      (root f : String),
      indexDomainFilesStep L d ds a root f
        = indexDomainFilesStep L2 d2 ds a root f := by
  intro ds a root f
  have hdi : d.includeRules = d2.includeRules := by
    have hx := congrArg Domain.includeRules hd
    exact hx
  have hde : d.excludeRules = d2.excludeRules := by
    have hx := congrArg Domain.excludeRules hd
    exact hx
  simp only [indexDomainFilesStep, Layout.checkInclusions, List.map_cons,
    List.map_nil, h1, h2, h3, h4, h5, hdi, hde]

/-- _index_domain_files is congruent in the walk-relevant projections of
the Layout and the static view of the domain. -/
theorem indexDomainFiles_congr (L L2 : Layout) (d d2 : Domain) (w : World)
    (h1 : L.root = L2.root) (h2 : L.configFilename = L2.configFilename)
    (h3 : L.absolutePaths = L2.absolutePaths)
    (h4 : L.includeRules = L2.includeRules)
    (h5 : L.excludeRules = L2.excludeRules)
    (hd : Domain.static d = Domain.static d2)
    (acc : List (String × List String) × List String) :
    indexDomainFiles L w d acc = indexDomainFiles L2 w d2 acc := by
  have hname : d.name = d2.name := by
    have hx := congrArg Domain.name hd
    exact hx
  have hroots : d.roots = d2.roots := by
    have hx := congrArg Domain.roots hd
    exact hx
  have hextra : d.extraDomains = d2.extraDomains := by
    have hx := congrArg Domain.extraDomains hd
    exact hx
  have hstep := indexDomainFilesStep_congr L L2 d d2 h1 h2 h3 h4 h5 hd
  simp only [indexDomainFiles, hname, hroots, hextra, hstep]

/-- The candidate-gathering fold of index() is congruent in the
walk-relevant projections and the static views of the iterated domains. -/
theorem indexDomainFiles_fold_congr (L L2 : Layout) (w : World)
    (h1 : L.root = L2.root) (h2 : L.configFilename = L2.configFilename)
    (h3 : L.absolutePaths = L2.absolutePaths)
    (h4 : L.includeRules = L2.includeRules)
    (h5 : L.excludeRules = L2.excludeRules) :
    ∀ (ds ds2 : List (String × Domain)),
      domStaticMap ds = domStaticMap ds2 →
      ∀ (acc : List (String × List String) × List String),
        ds.foldl (fun a kv => indexDomainFiles L w kv.2 a) acc
          = ds2.foldl (fun a kv => indexDomainFiles L2 w kv.2 a) acc := by
  intro ds
  induction ds with
  | nil =>
      intro ds2 hds acc
      cases ds2 with
      | nil => rfl
      | cons kv2 rest2 => simp [domStaticMap] at hds
  | cons kv rest ih =>
      intro ds2 hds acc
      cases ds2 with
      | nil => simp [domStaticMap] at hds
      | cons kv2 rest2 =>
          simp only [domStaticMap, List.map_cons, List.cons.injEq,
            Prod.mk.injEq] at hds
          rw [List.foldl_cons, List.foldl_cons,
            indexDomainFiles_congr L L2 kv.2 kv2.2 w h1 h2 h3 h4 h5 hds.1.2]
          exact ih rest2 hds.2 _

/-- The candidate-gathering phase of index() is determined by the
walk-relevant projections and the static view of the domain table. -/
theorem indexInit_congr (L L2 : Layout) (w : World)
    (h1 : L.root = L2.root) (h2 : L.configFilename = L2.configFilename)
    (h3 : L.absolutePaths = L2.absolutePaths)
    (h4 : L.includeRules = L2.includeRules)
    (h5 : L.excludeRules = L2.excludeRules)
    (hdm : domStaticMap L.domains = domStaticMap L2.domains) :
    L.indexInit w = L2.indexInit w :=
  indexDomainFiles_fold_congr L.resetIndex L2.resetIndex w h1 h2 h3 h4 h5
    L.domains L2.domains hdm ([], [])

/-- The _index_file domain loop is congruent in the entity table, the file
map and the static view of the domain table; its outputs agree on all
three and on the returned error and file. -/
theorem indexFileGo_congr (ds : List String) (La Lb L2 L3 : Layout)
    (f : File) (r r2 : Option String × Option File)
    (he : La.entities = Lb.entities) (hf : La.files = Lb.files)
    (hdm : domStaticMap La.domains = domStaticMap Lb.domains)
    (h : indexFileGo La f true ds = (L2, r))
    (h2 : indexFileGo Lb f true ds = (L3, r2)) :
    L2.files = L3.files ∧ L2.entities = L3.entities ∧
    domStaticMap L2.domains = domStaticMap L3.domains ∧ r = r2 := by
  induction ds generalizing La Lb f with
  | nil =>
      rw [indexFileGo, Prod.mk.injEq] at h h2
      refine ⟨?_, ?_, ?_, ?_⟩
      · rw [← h.1, ← h2.1]
        exact congrArg (fun t => aset t f.path f) hf
      · rw [← h.1, ← h2.1]; exact he
      · rw [← h.1, ← h2.1]; exact hdm
      · rw [← h.2, ← h2.2]
  | cons dn rest ih =>
      have hl := congrArg (fun t => alookup t dn) hdm
      simp only [domStaticMap, alookup_map] at hl
      rw [indexFileGo] at h h2
      cases hd : alookup La.domains dn with
      | none =>
          cases hd2 : alookup Lb.domains dn with
          | none =>
              rw [hd] at h
              rw [hd2] at h2
              rw [Prod.mk.injEq] at h h2
              refine ⟨?_, ?_, ?_, ?_⟩
              · rw [← h.1, ← h2.1]; exact hf
              · rw [← h.1, ← h2.1]; exact he
              · rw [← h.1, ← h2.1]; exact hdm
              · rw [← h.2, ← h2.2]
          | some dmb =>
              rw [hd, hd2] at hl
              simp at hl
      | some d =>
          cases hd2 : alookup Lb.domains dn with
          | none =>
              rw [hd, hd2] at hl
              simp at hl
          | some d2 =>
              rw [hd] at h
              rw [hd2] at h2
              rw [hd, hd2] at hl
              have hds : Domain.static d = Domain.static d2 := by
                simpa using hl
              have hent : d.entityNames = d2.entityNames := by
                have hx := congrArg Domain.entityNames hds
                exact hx
              have hmv : domainMatchVals La.entities d.entityNames f.path
                  = domainMatchVals Lb.entities d2.entityNames f.path := by
                rw [he, hent]
              have hsnd : (indexFileDomainStep La f dn d true).2
                  = (indexFileDomainStep Lb f dn d2 true).2 := by
                rw [indexFileDomainStep_snd, indexFileDomainStep_snd, hmv]
              have hE : (indexFileDomainStep La f dn d true).1.entities
                  = (indexFileDomainStep Lb f dn d2 true).1.entities := by
                rw [indexFileDomainStep_entities,
                  indexFileDomainStep_entities, hmv, he]
              have hF : (indexFileDomainStep La f dn d true).1.files
                  = (indexFileDomainStep Lb f dn d2 true).1.files := by
                rw [indexFileDomainStep_files, indexFileDomainStep_files, hf]
              have hD : domStaticMap
                    (indexFileDomainStep La f dn d true).1.domains
                  = domStaticMap
                    (indexFileDomainStep Lb f dn d2 true).1.domains := by
                rw [indexFileDomainStep_domains, indexFileDomainStep_domains,
                  domStaticMap_aset_self La.domains dn d _ hd,
                  domStaticMap_aset_self Lb.domains dn d2 _ hd2]
                exact hdm
              have h2b : indexFileGo
                  (indexFileDomainStep Lb f dn d2 true).1
                  (indexFileDomainStep Lb f dn d2 true).2 true rest
                  = (L3, r2) := h2
              rw [← hsnd] at h2b
              exact ih _ _ _ hE hF hD h h2b

/-- The final loop of index() is congruent in the entity table, the file
map and the static view of the domain table; its outputs agree on all
three and on the raised error. -/
theorem indexFilesLoop_congr (fti : List (String × List String))
    (La Lb L2 L3 : Layout) (r r2 : Option String)
    (he : La.entities = Lb.entities) (hf : La.files = Lb.files)
    (hdm : domStaticMap La.domains = domStaticMap Lb.domains)
    (h : indexFilesLoop La fti = (L2, r))
    (h2 : indexFilesLoop Lb fti = (L3, r2)) :
    L2.files = L3.files ∧ L2.entities = L3.entities ∧
    domStaticMap L2.domains = domStaticMap L3.domains ∧ r = r2 := by
  induction fti generalizing La Lb with
  | nil =>
      rw [indexFilesLoop, Prod.mk.injEq] at h h2
      refine ⟨?_, ?_, ?_, ?_⟩
      · rw [← h.1, ← h2.1]; exact hf
      · rw [← h.1, ← h2.1]; exact he
      · rw [← h.1, ← h2.1]; exact hdm
      · rw [← h.2, ← h2.2]
  | cons pds rest ih =>
      rw [indexFilesLoop] at h h2
      rcases hs : La.indexFile (pathSplit pds.1).1 (pathSplit pds.1).2
          (some pds.2) true with ⟨L4, err, fo⟩
      rcases hs2 : Lb.indexFile (pathSplit pds.1).1 (pathSplit pds.1).2
          (some pds.2) true with ⟨L5, err2, fo2⟩
      rw [hs] at h
      rw [hs2] at h2
      have hcong := indexFileGo_congr pds.2 La Lb L4 L5
        ⟨pathJoin (pathSplit pds.1).1 (pathSplit pds.1).2, []⟩
        (err, fo) (err2, fo2) he hf hdm hs hs2
      have herr : err = err2 := congrArg Prod.fst hcong.2.2.2
      cases err with
      | none =>
          cases err2 with
          | none =>
              have hh : indexFilesLoop L4 rest = (L2, r) := h
              have hh2 : indexFilesLoop L5 rest = (L3, r2) := h2
              exact ih _ _ hcong.2.1 hcong.1 hcong.2.2.1 hh hh2
          | some e => exact absurd herr (by simp)
      | some e =>
          cases err2 with
          | none => exact absurd herr (by simp)
          | some e2 =>
              have hh : (L4, some e) = ((L2 : Layout), r) := h
              have hh2 : (L5, some e2) = ((L3 : Layout), r2) := h2
              rw [Prod.mk.injEq] at hh hh2
              refine ⟨?_, ?_, ?_, ?_⟩
              · rw [← hh.1, ← hh2.1]; exact hcong.1
              · rw [← hh.1, ← hh2.1]; exact hcong.2.1
              · rw [← hh.1, ← hh2.1]; exact hcong.2.2.1
              · rw [← hh.2, ← hh2.2]
                exact herr

/-- C3 counterexample: exLayD is the concrete one-domain layout after one
successful index(); indexing it a second time leaves derived state behind
that differs from the first result, because _reset_index never clears
Domain.files: domain d's file list then holds ds/f.txt twice instead of
once, so the second call does not fully replace all derived state with an
identical result. -/
theorem index_twice_duplicates_domain_files :
    (alookup ((exLayD.index exWorldD 9).1).domains "d").map Domain.files
      = some ["ds/f.txt", "ds/f.txt"] ∧
    (alookup exLayD.domains "d").map Domain.files = some ["ds/f.txt"] := by
  decide

/-- C3 amended: over an unchanged file tree that exposes no additional
config files, a second successful index() reproduces the first call's
file-to-tags mapping and entity table exactly (hence the same Entity file
maps); only Domain.files, which _reset_index does not clear, keeps
growing, as the counterexample shows. -/
theorem index_idempotent_amended (L : Layout) (w : World)
    (fuel fuel2 : Nat) (L1 L2 : Layout)
    (hnc : (L.indexInit w).2 = [])
    (h1 : L.index w fuel = (L1, none))
    (h2 : L1.index w fuel2 = (L2, none)) :
    L2.files = L1.files ∧ L2.entities = L1.entities := by
  have h1m : (match extraConfigLoop L.resetIndex w (L.indexInit w).1
      (L.indexInit w).2 0 fuel with
    | (L3, fti, none) => indexFilesLoop L3 fti
    | (L3, _, some err) => (L3, some err)) = (L1, none) := h1
  rw [hnc, extraConfigLoop_nil] at h1m
  have hp := indexFilesLoop_preserves (L.indexInit w).1 L.resetIndex L1
    none h1m
  have hinit : L1.indexInit w = L.indexInit w :=
    indexInit_congr L1 L w hp.2.2.1 hp.2.2.2.1 hp.2.2.2.2.1
      hp.2.2.2.2.2.1 hp.2.2.2.2.2.2 hp.2.1
  have h2m : (match extraConfigLoop L1.resetIndex w (L1.indexInit w).1
      (L1.indexInit w).2 0 fuel2 with
    | (L3, fti, none) => indexFilesLoop L3 fti
    | (L3, _, some err) => (L3, some err)) = (L2, none) := h2
  rw [hinit, hnc, extraConfigLoop_nil] at h2m
  have he2 : (L1.resetIndex).entities = (L.resetIndex).entities :=
    hp.1.trans (entResetMap_idem L.entities)
  have hcong := indexFilesLoop_congr (L.indexInit w).1
    L1.resetIndex L.resetIndex L2 L1 none none he2 rfl hp.2.1 h2m h1m
  exact ⟨hcong.1, hcong.2.1⟩

/-- Witness for C3 amended on the concrete one-domain layout: both index()
calls succeed and the second reproduces the first's file map and entity
table. -/
theorem index_idempotent_amended_witness :
    ((exLayD.index exWorldD 9).1).files = exLayD.files ∧
    ((exLayD.index exWorldD 9).1).entities = exLayD.entities :=
  index_idempotent_amended exLayD0 exWorldD 9 9 exLayD
    ((exLayD.index exWorldD 9).1)
    (by decide)
    (by
      have h2 : (exLayD0.index exWorldD 9).2 = none := by decide
      calc exLayD0.index exWorldD 9
          = ((exLayD0.index exWorldD 9).1,
             (exLayD0.index exWorldD 9).2) := rfl
        _ = (exLayD, none) := by
            rw [h2]
            rfl)
    (by
      have h2 : (exLayD.index exWorldD 9).2 = none := by decide
      calc exLayD.index exWorldD 9
          = ((exLayD.index exWorldD 9).1,
             (exLayD.index exWorldD 9).2) := rfl
        _ = (((exLayD.index exWorldD 9).1), none) := by rw [h2])

end Grabbit
